import Mathlib

/-!
Verification of the xbloom-recipe-cli client core (src/xbloom_client.py, with the
CLI entry points of src/recipe_maker.py where a claim needs them).

Modelling conventions of this shallow embedding:
  - bytes are Nat (produced values are < 256), byte strings are List Nat;
  - Python str is Lean String / List Char (Python strings that hold lone
    surrogates are outside the model, Lean Char cannot represent them);
  - Python dicts are ordered association lists (insertion order preserved,
    as Python 3.7+ guarantees);
  - JSON-serializable Python values are the inductive type Value below; numbers
    are modelled as decimal literals without exponent part (ints, and floats
    whose repr has no exponent), which covers every number the client builds;
  - fallible Python code returns Except PyErr, raised exceptions are .error;
  - the filesystem slot behind ~/.xbloom_auth is the explicit FileState value
    threaded through the functions that touch it;
  - the randomness the cryptography library draws for PKCS#1 v1.5 padding is an
    explicit argument (the pad bytes per block), network responses and the
    current time are explicit arguments as well.
-/

set_option maxRecDepth 10000
set_option exponentiation.threshold 100000

namespace XBloom

/-! ### Decimal digits (used by the JSON serializer and parser) -/

def digitChar (n : Nat) : Char := Char.ofNat (48 + n)

def digitVal (c : Char) : Nat := c.toNat - 48

def isDigitCh (c : Char) : Bool := decide (48 ≤ c.toNat) && decide (c.toNat ≤ 57)

def natDigits (n : Nat) : List Char :=
  if n < 10 then [digitChar n] else natDigits (n / 10) ++ [digitChar (n % 10)]
termination_by n
decreasing_by exact Nat.div_lt_self (by omega) (by omega)

def digitsToNat (ds : List Char) : Nat := ds.foldl (fun a c => 10 * a + digitVal c) 0

/-- Left-pad the decimal digits of n with zeros to width k. -/
def padDigits (k n : Nat) : List Char :=
  List.replicate (k - (natDigits n).length) '0' ++ natDigits n

/-! ### Hexadecimal digits (json string escapes) -/

def hexDigitChar (n : Nat) : Char := List.getD "0123456789abcdef".data n '0'

def hexVal (c : Char) : Option Nat :=
  if 48 ≤ c.toNat ∧ c.toNat ≤ 57 then some (c.toNat - 48)
  else if 97 ≤ c.toNat ∧ c.toNat ≤ 102 then some (c.toNat - 87)
  else if 65 ≤ c.toNat ∧ c.toNat ≤ 70 then some (c.toNat - 55)
  else none

def hex4 (n : Nat) : List Char :=
  [hexDigitChar (n / 4096 % 16), hexDigitChar (n / 256 % 16),
   hexDigitChar (n / 16 % 16), hexDigitChar (n % 16)]

/-! ### UTF-8 (Python str.encode / bytes.decode with encoding utf-8) -/

def utf8EncodeChar (c : Char) : List Nat :=
  if c.toNat < 0x80 then [c.toNat]
  else if c.toNat < 0x800 then [0xC0 + c.toNat / 64, 0x80 + c.toNat % 64]
  else if c.toNat < 0x10000 then
    [0xE0 + c.toNat / 4096, 0x80 + c.toNat / 64 % 64, 0x80 + c.toNat % 64]
  else
    [0xF0 + c.toNat / 262144, 0x80 + c.toNat / 4096 % 64, 0x80 + c.toNat / 64 % 64,
     0x80 + c.toNat % 64]

def utf8Encode (s : String) : List Nat := s.data.foldr (fun c acc => utf8EncodeChar c ++ acc) []

/-- True for a UTF-8 continuation byte. -/
def isCont (b : Nat) : Bool := decide (0x80 ≤ b) && decide (b ≤ 0xBF)

/-- Lower bound for the second byte of a multi-byte sequence led by b. -/
def u8lo (b : Nat) : Nat := if b = 0xE0 then 0xA0 else if b = 0xF0 then 0x90 else 0x80

/-- Upper bound for the second byte of a multi-byte sequence led by b. -/
def u8hi (b : Nat) : Nat := if b = 0xED then 0x9F else if b = 0xF4 then 0x8F else 0xBF

mutual

/-- Strict UTF-8 decoding, as Python bytes.decode with the default strict error
handler: rejects truncated sequences, stray continuation bytes, overlong forms,
surrogates and code points above U+10FFFF (returns none where Python raises
UnicodeDecodeError). -/
def utf8Dec : List Nat → Option (List Char)
  | [] => some []
  | b :: bs =>
    if b < 0x80 then (utf8Dec bs).map (fun cs => Char.ofNat b :: cs)
    else if 0xC2 ≤ b ∧ b ≤ 0xDF then utf8Dec2 b bs
    else if 0xE0 ≤ b ∧ b ≤ 0xEF then utf8Dec3 b bs
    else if 0xF0 ≤ b ∧ b ≤ 0xF4 then utf8Dec4 b bs
    else none
termination_by s => s.length
decreasing_by all_goals (simp only [List.length_cons]; omega)

def utf8Dec2 (b : Nat) : List Nat → Option (List Char)
  | b2 :: bs2 =>
    if isCont b2 then
      (utf8Dec bs2).map (fun cs => Char.ofNat ((b - 0xC0) * 64 + (b2 - 0x80)) :: cs)
    else none
  | [] => none
termination_by s => s.length
decreasing_by all_goals (simp only [List.length_cons]; omega)

def utf8Dec3 (b : Nat) : List Nat → Option (List Char)
  | b2 :: b3 :: bs3 =>
    if (u8lo b ≤ b2 ∧ b2 ≤ u8hi b) ∧ isCont b3 then
      (utf8Dec bs3).map (fun cs =>
        Char.ofNat ((b - 0xE0) * 4096 + (b2 - 0x80) * 64 + (b3 - 0x80)) :: cs)
    else none
  | _ => none
termination_by s => s.length
decreasing_by all_goals (simp only [List.length_cons]; omega)

def utf8Dec4 (b : Nat) : List Nat → Option (List Char)
  | b2 :: b3 :: b4 :: bs4 =>
    if (u8lo b ≤ b2 ∧ b2 ≤ u8hi b) ∧ isCont b3 ∧ isCont b4 then
      (utf8Dec bs4).map (fun cs =>
        Char.ofNat ((b - 0xF0) * 262144 + (b2 - 0x80) * 4096 +
          (b3 - 0x80) * 64 + (b4 - 0x80)) :: cs)
    else none
  | _ => none
termination_by s => s.length
decreasing_by all_goals (simp only [List.length_cons]; omega)

end

/-! ### Base64 (Python base64.b64encode over the ciphertext) -/

def b64Alphabet : List Char :=
  "ABCDEFGHIJKLMNOPQRSTUVWXYZabcdefghijklmnopqrstuvwxyz0123456789+/".data

def b64c (i : Nat) : Char := b64Alphabet.getD i 'A'

def base64Encode : List Nat → List Char
  | [] => []
  | [b1] => [b64c (b1 / 4), b64c (b1 % 4 * 16), '=', '=']
  | [b1, b2] => [b64c (b1 / 4), b64c (b1 % 4 * 16 + b2 / 16), b64c (b2 % 16 * 4), '=']
  | b1 :: b2 :: b3 :: rest =>
      b64c (b1 / 4) :: b64c (b1 % 4 * 16 + b2 / 16) ::
      b64c (b2 % 16 * 4 + b3 / 64) :: b64c (b3 % 64) :: base64Encode rest

/-! ### JSON-serializable Python values

Numbers: Value.int is a Python int; Value.flt m d is the Python float
m / 10 ^ (d + 1), i.e. a decimal with exactly d + 1 fractional digits as its
repr prints it (floats whose repr needs an exponent are outside the model). -/

mutual

inductive Value where
  | null : Value
  | bool : Bool → Value
  | int : Int → Value
  | flt : Int → Nat → Value
  | str : String → Value
  | arr : ValueList → Value
  | obj : Fields → Value

inductive ValueList where
  | nil : ValueList
  | cons : Value → ValueList → ValueList

inductive Fields where
  | nil : Fields
  | cons : String → Value → Fields → Fields

end

deriving instance DecidableEq for Value

/-- Ordered-dict lookup: value of the first (and in our forms only) binding of k. -/
def Fields.lookup : Fields → String → Option Value
  | .nil, _ => none
  | .cons k v rest, key => if k = key then some v else rest.lookup key

/-- Python dict.get(key, default). -/
def Fields.getD (kvs : Fields) (key : String) (dflt : Value) : Value :=
  (kvs.lookup key).getD dflt

/-- Membership of a key, for dict.update semantics. -/
def Fields.hasKey (kvs : Fields) (key : String) : Bool := (kvs.lookup key).isSome

/-- Python dict item assignment d[k] = v: replaces the value in place if the key
exists, else appends the binding (insertion order preserved). -/
def Fields.setKey : Fields → String → Value → Fields
  | .nil, key, v => .cons key v .nil
  | .cons k w rest, key, v =>
    if k = key then .cons k v rest else .cons k w (rest.setKey key v)

/-- Python dict.update(other) applied binding by binding. -/
def Fields.update : Fields → Fields → Fields
  | kvs, .nil => kvs
  | kvs, .cons k v rest => (kvs.setKey k v).update rest

def Fields.append : Fields → Fields → Fields
  | .nil, g => g
  | .cons k v rest, g => .cons k v (rest.append g)

/-- Python truthiness of a JSON-decoded value (bool(x)). -/
def pyTruthy : Value → Bool
  | .null => false
  | .bool b => b
  | .int n => decide (n ≠ 0)
  | .flt m _ => decide (m ≠ 0)
  | .str s => decide (s ≠ "")
  | .arr .nil => false
  | .arr (.cons _ _) => true
  | .obj .nil => false
  | .obj (.cons _ _ _) => true

/-! ### Python json.dumps

Parameterized by the separators argument and by ensure_ascii; the client uses
separators ("," , ":") with ensure_ascii False for encrypted envelopes, and the
defaults (", " , ": ") with ensure_ascii True in save_auth, and (", ", ": ")
with ensure_ascii False for unencrypted bodies. -/

structure DumpCfg where
  itemSep : List Char
  kvSep : List Char
  ensureAscii : Bool

def compactCfg : DumpCfg := ⟨[','], [':'], false⟩

/-- json.dumps defaults with ensure_ascii False (used by _post for plain bodies). -/
def defaultCfg : DumpCfg := ⟨[','] ++ [' '], [':'] ++ [' '], false⟩

/-- json.dumps all-default call (used by save_auth): ensure_ascii True. -/
def asciiCfg : DumpCfg := ⟨[','] ++ [' '], [':'] ++ [' '], true⟩

/-- How json.dumps writes one character of a string value. -/
def escapeChar (ensureAscii : Bool) (c : Char) : List Char :=
  if c = '"' then ['\\', '"']
  else if c = '\\' then ['\\', '\\']
  else if c = '\n' then ['\\', 'n']
  else if c = '\r' then ['\\', 'r']
  else if c = '\t' then ['\\', 't']
  else if c.toNat = 8 then ['\\', 'b']
  else if c.toNat = 12 then ['\\', 'f']
  else if c.toNat < 0x20 then '\\' :: 'u' :: hex4 c.toNat
  else if ensureAscii ∧ 0x80 ≤ c.toNat then
    if c.toNat < 0x10000 then '\\' :: 'u' :: hex4 c.toNat
    else
      ('\\' :: 'u' :: hex4 (0xD800 + (c.toNat - 0x10000) / 1024)) ++
      ('\\' :: 'u' :: hex4 (0xDC00 + (c.toNat - 0x10000) % 1024))
  else [c]

def dumpStr (ea : Bool) (s : String) : List Char :=
  '"' :: s.data.foldr (fun c acc => escapeChar ea c ++ acc) ['"']

def dumpInt (n : Int) : List Char :=
  if n < 0 then '-' :: natDigits n.natAbs else natDigits n.natAbs

/-- repr of the float m / 10 ^ (d + 1): sign, integer part, '.', exactly d + 1
fractional digits. -/
def dumpFlt (m : Int) (d : Nat) : List Char :=
  (if m < 0 then ['-'] else []) ++
  natDigits (m.natAbs / 10 ^ (d + 1)) ++ '.' :: padDigits (d + 1) (m.natAbs % 10 ^ (d + 1))

mutual

def dumpValue (cfg : DumpCfg) : Value → List Char
  | .null => ['n', 'u', 'l', 'l']
  | .bool true => 't' :: ['r', 'u', 'e']
  | .bool false => 'f' :: 'a' :: ['l', 's', 'e']
  | .int n => dumpInt n
  | .flt m d => dumpFlt m d
  | .str s => dumpStr cfg.ensureAscii s
  | .arr xs => '[' :: dumpElems cfg xs ++ [']']
  | .obj kvs => '\x7b' :: dumpMembers cfg kvs ++ ['\x7d']

def dumpElems (cfg : DumpCfg) : ValueList → List Char
  | .nil => []
  | .cons v .nil => dumpValue cfg v
  | .cons v (.cons w rest) =>
    dumpValue cfg v ++ cfg.itemSep ++ dumpElems cfg (.cons w rest)

def dumpMembers (cfg : DumpCfg) : Fields → List Char
  | .nil => []
  | .cons k v .nil => dumpStr cfg.ensureAscii k ++ cfg.kvSep ++ dumpValue cfg v
  | .cons k v (.cons k2 w rest) =>
    dumpStr cfg.ensureAscii k ++ cfg.kvSep ++ dumpValue cfg v ++ cfg.itemSep ++
    dumpMembers cfg (.cons k2 w rest)

end

/-- json.dumps to a Lean string. -/
def jsonDumps (cfg : DumpCfg) (v : Value) : String := ⟨dumpValue cfg v⟩

/-! ### Python json.loads

Modelled from the documented JSON grammar json.loads accepts, restricted to the
number fragment of the Value model (no exponent part; a lone surrogate escape is
rejected where Python would build a surrogate-bearing str, which Lean Char
cannot hold). Returns none where json.loads raises JSONDecodeError. -/

def isWs (c : Char) : Bool := c = ' ' || c = '\t' || c = '\n' || c = '\r'

def skipWs (s : List Char) : List Char := s.dropWhile isWs

def spanDigits : List Char → List Char × List Char
  | [] => ([], [])
  | c :: rest =>
    if isDigitCh c then
      let p := spanDigits rest
      (c :: p.1, p.2)
    else ([], c :: rest)

/-- Combined value of four hex digits, if all four are hex. -/
def hex4Val (a b c d : Char) : Option Nat :=
  match hexVal a, hexVal b, hexVal c, hexVal d with
  | some va, some vb, some vc, some vd => some (4096 * va + 256 * vb + 16 * vc + vd)
  | _, _, _, _ => none

/-- The character a single-letter escape stands for. -/
def escCharOf (e : Char) : Option Char :=
  if e = '"' then some '"'
  else if e = '\\' then some '\\'
  else if e = '/' then some '/'
  else if e = 'b' then some (Char.ofNat 8)
  else if e = 'f' then some (Char.ofNat 12)
  else if e = 'n' then some '\n'
  else if e = 'r' then some '\r'
  else if e = 't' then some '\t'
  else none

mutual

/-- Body of a JSON string after the opening quote, up to and past the closing
quote. -/
def parseStrBody : List Char → Option (List Char × List Char)
  | [] => none
  | '"' :: rest => some ([], rest)
  | '\\' :: rest => parseEsc rest
  | c :: rest =>
    if c.toNat < 0x20 then none
    else (parseStrBody rest).map (fun p => (c :: p.1, p.2))
termination_by s => s.length
decreasing_by all_goals (simp only [List.length_cons]; omega)

/-- One escape sequence after the backslash. -/
def parseEsc : List Char → Option (List Char × List Char)
  | [] => none
  | e :: rest =>
    if e = 'u' then parseU rest
    else
      match escCharOf e with
      | some c => (parseStrBody rest).map (fun p => (c :: p.1, p.2))
      | none => none
termination_by s => s.length
decreasing_by all_goals (simp only [List.length_cons]; omega)

/-- Four hex digits after a backslash-u; a high surrogate must pair with a
following low surrogate escape. -/
def parseU : List Char → Option (List Char × List Char)
  | a :: b :: c :: d :: rest =>
    (hex4Val a b c d).bind (fun n =>
      if 0xD800 ≤ n ∧ n ≤ 0xDBFF then parseLow n rest
      else if 0xDC00 ≤ n ∧ n ≤ 0xDFFF then none
      else (parseStrBody rest).map (fun p => (Char.ofNat n :: p.1, p.2)))
  | _ => none
termination_by s => s.length
decreasing_by all_goals (simp only [List.length_cons]; omega)

/-- The low-surrogate escape completing a surrogate pair. -/
def parseLow (hi : Nat) : List Char → Option (List Char × List Char)
  | '\\' :: 'u' :: a :: b :: c :: d :: rest =>
    (hex4Val a b c d).bind (fun n2 =>
      if 0xDC00 ≤ n2 ∧ n2 ≤ 0xDFFF then
        (parseStrBody rest).map (fun p =>
          (Char.ofNat (0x10000 + (hi - 0xD800) * 1024 + (n2 - 0xDC00)) :: p.1, p.2))
      else none)
  | _ => none
termination_by s => s.length
decreasing_by all_goals (simp only [List.length_cons]; omega)

end

/-- JSON number (decimal literal without exponent part). -/
def parseNum (s : List Char) : Option (Value × List Char) :=
  let neg : Bool := decide (s.headD 'x' = '-')
  let s1 := if s.headD 'x' = '-' then s.tail else s
  let ip := spanDigits s1
  if ip.1 = [] then none
  else if 1 < ip.1.length ∧ ip.1.headD '0' = '0' then none
  else if ip.2.headD 'x' = '.' then
    let fp := spanDigits ip.2.tail
    if fp.1 = [] then none
    else
      let mabs : Int := Int.ofNat (digitsToNat ip.1 * 10 ^ fp.1.length + digitsToNat fp.1)
      some (.flt (if neg then -mabs else mabs) (fp.1.length - 1), fp.2)
  else
    let n : Int := Int.ofNat (digitsToNat ip.1)
    some (.int (if neg then -n else n), ip.2)

mutual

def parseValue : Nat → List Char → Option (Value × List Char)
  | 0, _ => none
  | fuel + 1, s =>
    match skipWs s with
    | 'n' :: 'u' :: 'l' :: 'l' :: rest => some (.null, rest)
    | 't' :: 'r' :: 'u' :: 'e' :: rest => some (.bool true, rest)
    | 'f' :: 'a' :: 'l' :: 's' :: 'e' :: rest => some (.bool false, rest)
    | '"' :: rest => (parseStrBody rest).map (fun p => (.str ⟨p.1⟩, p.2))
    | '[' :: rest =>
      match skipWs rest with
      | ']' :: r2 => some (.arr .nil, r2)
      | _ => (parseElems fuel rest).map (fun p => (.arr p.1, p.2))
    | '\x7b' :: rest =>
      match skipWs rest with
      | '\x7d' :: r2 => some (.obj .nil, r2)
      | _ => (parseMembers fuel rest).map (fun p => (.obj p.1, p.2))
    | s2 => parseNum s2
termination_by fuel _ => (fuel, 0)

def parseElems : Nat → List Char → Option (ValueList × List Char)
  | 0, _ => none
  | fuel + 1, s => (parseValue fuel s).bind (parseElemsTail fuel)
termination_by fuel _ => (fuel, 1)

/-- After one array element: a comma continues the element list, a closing
bracket ends it. -/
def parseElemsTail (fuel : Nat) : Value × List Char → Option (ValueList × List Char)
  | (v, r) =>
    match skipWs r with
    | ',' :: r2 => (parseElems fuel r2).map (fun p => (ValueList.cons v p.1, p.2))
    | ']' :: r2 => some (.cons v .nil, r2)
    | _ => none
termination_by vr => (fuel, 2)

def parseMembers : Nat → List Char → Option (Fields × List Char)
  | 0, _ => none
  | fuel + 1, s =>
    match skipWs s with
    | '"' :: rest => (parseStrBody rest).bind (parseMembersKey fuel)
    | _ => none
termination_by fuel _ => (fuel, 1)

/-- After an object key string: the colon, then the value. -/
def parseMembersKey (fuel : Nat) : List Char × List Char → Option (Fields × List Char)
  | (k, r) =>
    match skipWs r with
    | ':' :: r2 => (parseValue fuel r2).bind (parseMembersVal fuel ⟨k⟩)
    | _ => none
termination_by kr => (fuel, 3)

/-- After one key-value pair: a comma continues the member list, a closing
brace ends it. -/
def parseMembersVal (fuel : Nat) (k : String) : Value × List Char → Option (Fields × List Char)
  | (v, r) =>
    match skipWs r with
    | ',' :: r4 => (parseMembers fuel r4).map (fun p => (Fields.cons k v p.1, p.2))
    | '\x7d' :: r4 => some (.cons k v .nil, r4)
    | _ => none
termination_by vr => (fuel, 2)

end

/-- json.loads over a character list: a single JSON value, with optional
surrounding whitespace and nothing else. -/
def jsonParse (s : List Char) : Option Value :=
  match parseValue (s.length + 1) s with
  | some (v, rest) => if skipWs rest = [] then some v else none
  | none => none

/-- json.loads over a Lean string. -/
def jsonLoads (s : String) : Option Value := jsonParse s.data

/-! ### The RSA block cipher codec (rsa_encrypt of src/xbloom_client.py) -/

/-- The modulus of the 1024-bit public key embedded as RSA_PUBLIC_KEY_B64 in the
source (the base64 DER decodes to an X.509 SubjectPublicKeyInfo with this
modulus and exponent 65537). -/
def rsaN : Nat := 129330898196524035537976942324074970833416744288030356569035620369000727856373472301717790583499447899781748023780674448973423414267743454985934371485412284452034369712392281716614261827955533793764788338518857650554157741130391666823649057760177259084437609842182030447909957380007514927906169303961664507641

def rsaE : Nat := 65537

def RSA_KEY_BYTES : Nat := 128

def RSA_MAX_PLAIN_BLOCK : Nat := 117

/-- Big-endian bytes to integer (OS2IP). -/
def os2ip (bs : List Nat) : Nat := bs.foldl (fun a b => 256 * a + b) 0

/-- Integer to 128 big-endian bytes (I2OSP with the key length). -/
def i2osp128 (x : Nat) : List Nat := (List.range 128).map (fun i => x / 256 ^ (127 - i) % 256)

/-- EME-PKCS1-v1_5 encoding 00 02 PS 00 M. Modelled from the spec of the
cryptography package's PKCS1v15 encryption padding (RFC 8017 section 7.2.1),
which is a library the repository calls, not repository code: PS is the run of
random nonzero pad bytes the library draws fresh on every call; it is passed
here explicitly. -/
def pkcs1EM (ps msg : List Nat) : List Nat := 0 :: 2 :: ps ++ 0 :: msg

/-- The pad run the library would draw for a message of the given length:
RSA_KEY_BYTES - msgLen - 3 bytes, each in 1..255. -/
def validPS (ps : List Nat) (msgLen : Nat) : Prop :=
  ps.length = RSA_KEY_BYTES - msgLen - 3 ∧ ∀ b ∈ ps, 1 ≤ b ∧ b ≤ 255

/-- Single-block RSAES-PKCS1-v1_5 encryption under the client's public key:
I2OSP(OS2IP(EM)^e mod n, 128). -/
def encryptBlock (ps msg : List Nat) : List Nat :=
  i2osp128 (os2ip (pkcs1EM ps msg) ^ rsaE % rsaN)

/-- rsa_encrypt of the source: hutool-style chunking, 117-byte plaintext slices
each encrypted to a 128-byte ciphertext block, blocks concatenated in order.
pads i is the random pad run the library draws for block i. math.ceil of the
float quotient len/117 is modelled as exact ceiling division (the two agree for
every length below 2^53, i.e. any representable plaintext). -/
def rsa_encrypt (pads : Nat → List Nat) (plaintext : List Nat) : List Nat :=
  let numBlocks := (plaintext.length + (RSA_MAX_PLAIN_BLOCK - 1)) / RSA_MAX_PLAIN_BLOCK
  ((List.range numBlocks).map (fun i =>
    encryptBlock (pads i)
      ((plaintext.drop (i * RSA_MAX_PLAIN_BLOCK)).take RSA_MAX_PLAIN_BLOCK))).flatten

/-- encrypt_form of the source: JSON serialize (compact separators, ensure_ascii
False) to UTF-8 bytes, chunked RSA encrypt, base64 encode, decode as ASCII. -/
def encrypt_form (pads : Nat → List Nat) (form : Fields) : String :=
  ⟨base64Encode (rsa_encrypt pads (utf8Encode (jsonDumps compactCfg (.obj form))))⟩

/-! ### Credential storage (~/.xbloom_auth) -/

inductive PyErr where
  | attributeError : PyErr
  | unicodeDecodeError : PyErr
  | valueError : PyErr
  | typeError : PyErr
deriving DecidableEq

/-- State of the ~/.xbloom_auth file: absent, present but unreadable (reading
raises OSError), or present with content bytes and a permission mode. -/
inductive FileState where
  | absent : FileState
  | osError : FileState
  | content : List Nat → Nat → FileState
deriving DecidableEq

/-- load_auth: None when the file does not exist; read_text decodes UTF-8
(UnicodeDecodeError propagates, it is not a JSONDecodeError and not an OSError);
json.loads failure and OSError are caught and give None. -/
def load_auth : FileState → Except PyErr (Option Value)
  | .absent => .ok none
  | .osError => .ok none
  | .content bytes _ =>
    match utf8Dec bytes with
    | none => .error .unicodeDecodeError
    | some chars =>
      match jsonParse chars with
      | none => .ok none
      | some v => .ok (some v)

/-- The dict save_auth serializes. login passes token and email through without
a type check, so they stay Value here. -/
def authRecord (member_id : Int) (token email : Value) : Fields :=
  .cons "member_id" (.int member_id) (.cons "token" token (.cons "email" email .nil))

/-- save_auth: write_text of json.dumps with default separators and
ensure_ascii, then chmod 0600; any prior state is overwritten. -/
def save_auth (member_id : Int) (token email : Value) (_fs : FileState) : FileState :=
  .content (utf8Encode (jsonDumps asciiCfg (.obj (authRecord member_id token email)))) 0o600

/-! ### The request envelope builder (_make_base_form) -/

/-- The token expression of _make_base_form:
token or (auth.get("token", "") if auth else ""). Python evaluates the right
operand only when token is the empty (falsy) string; the truthiness test on
auth precedes the .get, which raises AttributeError on a truthy non-dict. -/
def tokenOfAuth (auth : Option Value) (token : String) : Except PyErr Value :=
  if token ≠ "" then .ok (.str token)
  else
    match auth with
    | none => .ok (.str "")
    | some a =>
      if pyTruthy a then
        match a with
        | .obj kvs => .ok (kvs.getD "token" (.str ""))
        | _ => .error .attributeError
      else .ok (.str "")

/-- _make_base_form: loads the stored Credential Record only when no explicit
token is passed, then builds the fixed base field set. -/
def _make_base_form (fs : FileState) (member_id : Int) (token : String) :
    Except PyErr Fields := do
  let auth ← if token = "" then load_auth fs else pure none
  let tok ← tokenOfAuth auth token
  pure (.cons "interfaceVersion" (.int 20240918)
       (.cons "skey" (.str "testskey")
       (.cons "phoneType" (.str "Android")
       (.cons "memberId" (.int member_id)
       (.cons "clientType" (.int 2)
       (.cons "languageType" (.int 1)
       (.cons "token" tok .nil)))))))

/-! ### Transport (_post) -/

inductive PostData where
  | bytes : List Nat → PostData
  | raw : Value → PostData
deriving DecidableEq

structure HttpRequest where
  url : String
  method : String
  data : PostData
  headers : List (String × String)
  timeoutSeconds : Nat
deriving DecidableEq

def BASE_URL : String := "https://client-api.xbloom.com/"

def SKEY : String := "testskey"

/-- The request _post constructs and hands to urlopen. The network round trip
and the json.loads of the response body are outside the model (responses enter
the API operations as explicit arguments). A str body under is_encrypted is
UTF-8 encoded verbatim; a non-str body under is_encrypted is passed through raw
(no call site does this); an unencrypted body is JSON-encoded with json.dumps
defaults except ensure_ascii False. -/
def _post (endpoint : String) (body : Value) (is_encrypted : Bool) : HttpRequest :=
  ⟨BASE_URL ++ endpoint, "POST",
   (if is_encrypted then
      match body with
      | .str s => .bytes (utf8Encode s)
      | v => .raw v
    else .bytes (utf8Encode (jsonDumps defaultCfg body))),
   [("Content-Type", "application/json; charset=utf-8"),
    ("Accept", "application/json, text/plain, */*")] ++
     (if is_encrypted then [] else [("Referer", "https://share-h5.xbloom.com/")]),
   15⟩

/-! ### Share-id parsing (parse_share_id): str.strip, str.split, urllib unquote -/

/-- Python str.isspace characters that occur in ASCII text (the model's strip
set: space, tab, newline, carriage return, vertical tab, form feed). -/
def pySpace (c : Char) : Bool := isWs c || decide (c.toNat = 11) || decide (c.toNat = 12)

/-- Python str.strip() with no argument. -/
def pyStrip (s : List Char) : List Char :=
  ((s.dropWhile pySpace).reverse.dropWhile pySpace).reverse

/-- Split at the first occurrence of the (nonempty) separator: some (before,
after), or none when the separator does not occur. -/
def breakOn (sep : List Char) : List Char → Option (List Char × List Char)
  | [] => none
  | c :: rest =>
    if sep.isPrefixOf (c :: rest) then some ([], (c :: rest).drop sep.length)
    else
      match breakOn sep rest with
      | some p => some (c :: p.1, p.2)
      | none => none

/-- Python substring membership (sep in s, for nonempty sep). -/
def containsSub (sep s : List Char) : Bool := (breakOn sep s).isSome

def pySplit (sep s : List Char) : List (List Char) :=
  if hsep : sep = [] then [s]
  else
    match hb : breakOn sep s with
    | none => [s]
    | some p => p.1 :: pySplit sep p.2
termination_by s.length
decreasing_by
  revert p hb
  induction s with
  | nil => intro p hb; simp [breakOn] at hb
  | cons c rest ih =>
    intro p hb
    rw [breakOn] at hb
    by_cases hpre : sep.isPrefixOf (c :: rest)
    · simp only [hpre, if_pos] at hb
      cases hb
      have hlen : 1 ≤ sep.length := by
        cases hp : sep with
        | nil => exact absurd hp hsep
        | cons a b => simp
      simp only [List.length_drop, List.length_cons]
      omega
    · simp only [hpre, if_neg, if_false] at hb
      cases hq : breakOn sep rest with
      | none => rw [hq] at hb; exact absurd hb (by simp)
      | some q =>
        rw [hq] at hb
        cases hb
        have := ih q hq
        simp only [List.length_cons]
        omega

/-- Consecutive percent-encoded triplets from the front: decoded bytes and the
rest of the string. -/
def pctRun : List Char → List Nat × List Char
  | '%' :: a :: b :: rest =>
    match hexVal a, hexVal b with
    | some va, some vb =>
      let p := pctRun rest
      ((16 * va + vb) :: p.1, p.2)
    | _, _ => ([], '%' :: a :: b :: rest)
  | s => ([], s)

mutual

/-- Total UTF-8 decoding with the replace error handler, as Python
bytes.decode(utf-8, errors replace) inside urllib unquote. On an ill-formed
sequence the model emits U+FFFD and resumes one byte later (CPython resumes
after the maximal ill-formed subpart; the two agree on well-formed input, which
is all the proofs below evaluate). -/
def utf8DecReplace : List Nat → List Char
  | [] => []
  | b :: bs =>
    if b < 0x80 then Char.ofNat b :: utf8DecReplace bs
    else if 0xC2 ≤ b ∧ b ≤ 0xDF then utf8DecReplace2 b bs
    else if 0xE0 ≤ b ∧ b ≤ 0xEF then utf8DecReplace3 b bs
    else if 0xF0 ≤ b ∧ b ≤ 0xF4 then utf8DecReplace4 b bs
    else Char.ofNat 0xFFFD :: utf8DecReplace bs
termination_by s => (s.length, 1)
decreasing_by all_goals (simp only [List.length_cons]; omega)

/-- The two-byte continuation of utf8DecReplace. -/
def utf8DecReplace2 (b : Nat) : List Nat → List Char
  | b2 :: bs2 =>
    if isCont b2 then Char.ofNat ((b - 0xC0) * 64 + (b2 - 0x80)) :: utf8DecReplace bs2
    else Char.ofNat 0xFFFD :: utf8DecReplace (b2 :: bs2)
  | [] => [Char.ofNat 0xFFFD]
termination_by s => (s.length, 2)
decreasing_by all_goals (simp only [List.length_cons]; omega)

/-- The three-byte continuation of utf8DecReplace. -/
def utf8DecReplace3 (b : Nat) : List Nat → List Char
  | b2 :: b3 :: bs3 =>
    if (u8lo b ≤ b2 ∧ b2 ≤ u8hi b) ∧ isCont b3 then
      Char.ofNat ((b - 0xE0) * 4096 + (b2 - 0x80) * 64 + (b3 - 0x80)) :: utf8DecReplace bs3
    else Char.ofNat 0xFFFD :: utf8DecReplace (b2 :: b3 :: bs3)
  | s => [Char.ofNat 0xFFFD]
termination_by s => (s.length, 2)
decreasing_by all_goals (simp only [List.length_cons]; omega)

/-- The four-byte continuation of utf8DecReplace. -/
def utf8DecReplace4 (b : Nat) : List Nat → List Char
  | b2 :: b3 :: b4 :: bs4 =>
    if (u8lo b ≤ b2 ∧ b2 ≤ u8hi b) ∧ isCont b3 ∧ isCont b4 then
      Char.ofNat ((b - 0xF0) * 262144 + (b2 - 0x80) * 4096 + (b3 - 0x80) * 64 +
        (b4 - 0x80)) :: utf8DecReplace bs4
    else Char.ofNat 0xFFFD :: utf8DecReplace (b2 :: b3 :: b4 :: bs4)
  | s => [Char.ofNat 0xFFFD]
termination_by s => (s.length, 2)
decreasing_by all_goals (simp only [List.length_cons]; omega)

end

/-- urllib.parse.unquote with its defaults: maximal runs of percent triplets are
decoded as UTF-8 (replace error handler); a percent sign not followed by two
hex digits, and every other character, is copied through. -/
def unquoteChars : List Char → List Char
  | [] => []
  | '%' :: a :: b :: rest =>
    match hexVal a, hexVal b with
    | some va, some vb =>
      let p := pctRun rest
      utf8DecReplace ((16 * va + vb) :: p.1) ++ unquoteChars p.2
    | _, _ => '%' :: unquoteChars (a :: b :: rest)
  | c :: rest => c :: unquoteChars rest
termination_by s => s.length
decreasing_by
  · have hle : ∀ t : List Char, (pctRun t).2.length ≤ t.length := by
      intro t
      induction t using pctRun.induct with
      | case1 a b r va vb hva hvb ih =>
        rw [pctRun, hva, hvb]
        simp only [List.length_cons]
        omega
      | case2 a b r h =>
        rw [pctRun]
        split
        · rename_i va2 vb2 hva2 hvb2
          exact (h va2 vb2 hva2 hvb2).elim
        · simp
      | case3 t h =>
        rw [pctRun.eq_def]
        split
        · rename_i x a b r
          exact (h a b r rfl).elim
        · simp
    have := hle rest
    simp only [List.length_cons]
    omega
  · simp only [List.length_cons]; omega
  · simp only [List.length_cons]; omega

def unquote (s : String) : String := ⟨unquoteChars s.data⟩

def idEq : List Char := ['i', 'd', '=']

/-- parse_share_id of the source: strip, then if "id=" occurs take the piece
after the last "id=" up to the next "&", then URL-decode. -/
def parse_share_id (share : String) : String :=
  let s := pyStrip share.data
  let s2 :=
    if containsSub idEq s then
      (pySplit ['&'] ((pySplit idEq s).getLastD [])).headD []
    else s
  ⟨unquoteChars s2⟩

/-! ### API operations -/

/-- fetch_recipe: public endpoint, plain JSON body, no auth. The returned value
is the request handed to the transport. -/
def fetch_recipe (share : String) : HttpRequest :=
  _post "RecipeDetail.html"
    (.obj (.cons "tableIdOfRSA" (.str (parse_share_id share))
          (.cons "interfaceVersion" (.int 19700101)
          (.cons "skey" (.str SKEY) .nil)))) false

/-- Python int(s) on a str: optional surrounding whitespace, optional sign,
then decimal digits (digit grouping underscores are not modelled; the client
never feeds them). -/
def pyIntOfStr (s : String) : Except PyErr Int :=
  let t := pyStrip s.data
  let neg := match t with | '-' :: _ => true | _ => false
  let t1 := match t with | '-' :: r => r | '+' :: r => r | _ => t
  if t1 ≠ [] ∧ t1.all isDigitCh then
    .ok (if neg then -(Int.ofNat (digitsToNat t1)) else Int.ofNat (digitsToNat t1))
  else .error .valueError

/-- Python int(x) on a JSON-decoded value: ints pass through, bools are 0 or 1,
floats truncate toward zero, numeric strings parse, anything else raises. -/
def pyInt : Value → Except PyErr Int
  | .int n => .ok n
  | .bool b => .ok (if b then 1 else 0)
  | .flt m d => .ok (Int.tdiv m (Int.ofNat (10 ^ (d + 1))))
  | .str s => pyIntOfStr s
  | _ => .error .typeError

/-- The plaintext login form. -/
def loginForm (email password : String) : Fields :=
  .cons "interfaceVersion" (.int 20240918)
  (.cons "skey" (.str SKEY)
  (.cons "phoneType" (.str "Android")
  (.cons "clientType" (.int 2)
  (.cons "languageType" (.int 1)
  (.cons "email" (.str email)
  (.cons "password" (.str password)
  (.cons "jpushId" (.str "") .nil)))))))

/-- login: encrypts the form and posts it (the network round trip is external,
resp is the JSON-decoded response); on result == "success" persists
member.tableId, the response token and member.email via save_auth; returns the
full response either way. -/
def login (pads : Nat → List Nat) (email password : String) (resp : Value)
    (fs : FileState) : Except PyErr (Value × FileState) :=
  let _body := encrypt_form pads (loginForm email password)
  match resp with
  | .obj kvs =>
    if kvs.lookup "result" = some (.str "success") then
      match kvs.getD "member" (.obj .nil) with
      | .obj mkvs =>
        (pyInt (mkvs.getD "tableId" (.int 0))).map (fun mid =>
          (resp, save_auth mid (kvs.getD "token" (.str ""))
            (mkvs.getD "email" (.str email)) fs))
      | _ => .error .attributeError
    else .ok (resp, fs)
  | _ => .error .attributeError

/-- The default pour list of create_recipe. -/
def pourDefault : ValueList :=
  .cons (.obj
    (.cons "theName" (.str "Pour")
    (.cons "volume" (.flt 2250 0)
    (.cons "temperature" (.flt 930 0)
    (.cons "flowRate" (.flt 35 0)
    (.cons "pattern" (.int 1)
    (.cons "pausing" (.int 0)
    (.cons "isEnableVibrationBefore" (.int 2)
    (.cons "isEnableVibrationAfter" (.int 2) .nil))))))))) .nil

/-- The envelope create_recipe builds: the authenticated base form updated with
the recipe fields, fixed server constants, the call-time timestamp and the
pour list serialized as a compact JSON string. -/
def create_recipe_form (fs : FileState) (now_ms : Int) (member_id : Int)
    (name : String) (dose grand_water grinder_size : Value) (rpm cup_type : Int)
    (adapted_model is_enable_bypass_water is_set_grinder_size : Int)
    (the_color : String) (the_subset_id : Int) (bypass_temp bypass_volume : Value)
    (pour_list : Option ValueList) : Except PyErr Fields := do
  let pl := match pour_list with | none => pourDefault | some l => l
  let base ← _make_base_form fs member_id ""
  pure (base.update
    (.cons "theName" (.str name)
    (.cons "dose" dose
    (.cons "grandWater" grand_water
    (.cons "grinderSize" grinder_size
    (.cons "rpm" (.int rpm)
    (.cons "cupType" (.int cup_type)
    (.cons "adaptedModel" (.int adapted_model)
    (.cons "isEnableBypassWater" (.int is_enable_bypass_water)
    (.cons "isSetGrinderSize" (.int is_set_grinder_size)
    (.cons "theColor" (.str the_color)
    (.cons "theSubsetId" (.int the_subset_id)
    (.cons "bypassTemp" bypass_temp
    (.cons "bypassVolume" bypass_volume
    (.cons "subSetType" (.int 2)
    (.cons "appPlace" (.arr (.cons (.int 4) .nil))
    (.cons "createTimeStamp" (.int now_ms)
    (.cons "isShortcuts" (.int 2)
    (.cons "pourDataJSONStr" (.str (jsonDumps compactCfg (.arr pl)))
      .nil)))))))))))))))))))

/-- create_recipe: envelope, encryption, POST to tuRecipeAdd.tuhtml. -/
def create_recipe (pads : Nat → List Nat) (fs : FileState) (now_ms : Int)
    (member_id : Int) (name : String) (dose grand_water grinder_size : Value)
    (rpm cup_type adapted_model is_enable_bypass_water is_set_grinder_size : Int)
    (the_color : String) (the_subset_id : Int) (bypass_temp bypass_volume : Value)
    (pour_list : Option ValueList) : Except PyErr HttpRequest := do
  let form ← create_recipe_form fs now_ms member_id name dose grand_water
    grinder_size rpm cup_type adapted_model is_enable_bypass_water
    is_set_grinder_size the_color the_subset_id bypass_temp bypass_volume pour_list
  pure (_post "tuRecipeAdd.tuhtml" (.str (encrypt_form pads form)) true)

/-- The envelope list_my_recipes builds: base form, fixed pagination, and the
adaptedModel filter only when adapted_model is truthy. -/
def list_my_recipes_form (fs : FileState) (member_id adapted_model : Int) :
    Except PyErr Fields := do
  let base ← _make_base_form fs member_id ""
  let f1 := (base.setKey "pageNumber" (.int 1)).setKey "countPerPage" (.int 100)
  pure (if adapted_model ≠ 0 then f1.setKey "adaptedModel" (.int adapted_model) else f1)

/-- list_my_recipes: envelope, encryption, POST to tuMyTeaRecipeCreated.tuhtml. -/
def list_my_recipes (pads : Nat → List Nat) (fs : FileState)
    (member_id adapted_model : Int) : Except PyErr HttpRequest := do
  let form ← list_my_recipes_form fs member_id adapted_model
  pure (_post "tuMyTeaRecipeCreated.tuhtml" (.str (encrypt_form pads form)) true)

/-- _get_member_id of src/recipe_maker.py: loads the Credential Record and
returns int(auth[member_id]); a falsy record or a falsy member_id field exits
the process, modelled as .ok none. -/
def _get_member_id (fs : FileState) : Except PyErr (Option Int) := do
  let auth ← load_auth fs
  match auth with
  | none => pure none
  | some a =>
    if pyTruthy a then
      match a with
      | .obj kvs =>
        if pyTruthy (kvs.getD "member_id" .null) then do
          let mid ← pyInt (kvs.getD "member_id" .null)
          pure (some mid)
        else pure none
      | _ => .error .attributeError
    else pure none

/-! ### Auxiliary definitions for the statements and proofs -/

mutual

/-- Node count, the fuel needed to parse a serialized value. -/
def Value.nodes : Value → Nat
  | .arr xs => 1 + xs.nodes
  | .obj kvs => 1 + kvs.nodes
  | _ => 1

def ValueList.nodes : ValueList → Nat
  | .nil => 0
  | .cons v rest => 1 + v.nodes + rest.nodes

def Fields.nodes : Fields → Nat
  | .nil => 0
  | .cons _ v rest => 1 + v.nodes + rest.nodes

end

/-- Characters that may follow a serialized value without extending its last
token: end of input, or a separator / closer the parser stops at. -/
def safeRest : List Char → Prop
  | [] => True
  | c :: _ => c = ',' ∨ c = ']' ∨ c = '\x7d'

/-- All characters are JSON whitespace. -/
def allWsL (l : List Char) : Prop := ∀ c ∈ l, isWs c = true

/-- The separator shapes json.dumps is called with in this client: an item
separator that is a comma followed by whitespace and a key separator that is a
colon followed by whitespace. -/
structure GoodCfg (cfg : DumpCfg) : Prop where
  item : ∃ ws, cfg.itemSep = ',' :: ws ∧ allWsL ws
  kv : ∃ ws, cfg.kvSep = ':' :: ws ∧ allWsL ws

mutual

/-- No string (key or value) anywhere in the value contains a space character. -/
def Value.noSpace : Value → Bool
  | .str s => decide (' ' ∉ s.data)
  | .arr xs => xs.noSpace
  | .obj kvs => kvs.noSpace
  | _ => true

def ValueList.noSpace : ValueList → Bool
  | .nil => true
  | .cons v rest => v.noSpace && rest.noSpace

def Fields.noSpace : Fields → Bool
  | .nil => true
  | .cons k v rest => decide (' ' ∉ k.data) && v.noSpace && rest.noSpace

end

/-- Value of the last binding of a key, matching what repeated dict.update
assignments leave in place. -/
def Fields.revLookup : Fields → String → Option Value
  | .nil, _ => none
  | .cons k v rest, key =>
    match rest.revLookup key with
    | some w => some w
    | none => if k = key then some v else none

/-- The plaintext slices rsa_encrypt is specified to encrypt: successive pieces
of at most 117 bytes. -/
def chunks117 (l : List Nat) : List (List Nat) :=
  if l = [] then [] else l.take 117 :: chunks117 (l.drop 117)
termination_by l.length
decreasing_by
  rename_i h
  have : l.length ≠ 0 := fun hz => h (List.eq_nil_of_length_eq_zero hz)
  simp only [List.length_drop]
  omega

/-- The base field set _make_base_form produces, as a function of the member id
and the token value it resolved. -/
def baseFields (mid : Int) (tok : Value) : Fields :=
  .cons "interfaceVersion" (.int 20240918)
  (.cons "skey" (.str "testskey")
  (.cons "phoneType" (.str "Android")
  (.cons "memberId" (.int mid)
  (.cons "clientType" (.int 2)
  (.cons "languageType" (.int 1)
  (.cons "token" tok .nil))))))

/-- A pad run the library could draw for a one-byte message: 124 nonzero
bytes. -/
def psA : List Nat := List.replicate 124 1

/-- A second valid pad run for a one-byte message, differing from psA in its
first byte. -/
def psB : List Nat := 2 :: List.replicate 123 1

/-! ## Lemmas: decimal digits -/

theorem natDigits_ne_nil (n : Nat) : natDigits n ≠ [] := by
  rw [natDigits]
  split
  · simp
  · simp

theorem digitVal_digitChar : ∀ n, n < 10 → digitVal (digitChar n) = n := by decide

theorem isDigitCh_digitChar : ∀ n, n < 10 → isDigitCh (digitChar n) = true := by decide

theorem natDigits_digits (n : Nat) : ∀ c ∈ natDigits n, isDigitCh c = true := by
  induction n using natDigits.induct with
  | case1 n h =>
    intro c hc
    rw [natDigits, if_pos h] at hc
    simp only [List.mem_singleton] at hc
    subst hc
    exact isDigitCh_digitChar n h
  | case2 n h ih =>
    intro c hc
    rw [natDigits, if_neg h] at hc
    rcases List.mem_append.mp hc with h2 | h2
    · exact ih c h2
    · simp only [List.mem_singleton] at h2
      subst h2
      exact isDigitCh_digitChar _ (Nat.mod_lt _ (by omega))

theorem digitsToNat_append_one (ds : List Char) (c : Char) :
    digitsToNat (ds ++ [c]) = 10 * digitsToNat ds + digitVal c := by
  simp [digitsToNat, List.foldl_append]

theorem digitsToNat_natDigits (n : Nat) : digitsToNat (natDigits n) = n := by
  induction n using natDigits.induct with
  | case1 n h =>
    rw [natDigits, if_pos h]
    show 10 * 0 + digitVal (digitChar n) = n
    rw [digitVal_digitChar n h]
    omega
  | case2 n h ih =>
    rw [natDigits, if_neg h, digitsToNat_append_one, ih,
      digitVal_digitChar _ (Nat.mod_lt _ (by omega))]
    omega

theorem natDigits_length_le : ∀ k n : Nat, n < 10 ^ (k + 1) →
    (natDigits n).length ≤ k + 1 := by
  intro k
  induction k with
  | zero =>
    intro n h
    rw [natDigits, if_pos (by simpa using h)]
    simp
  | succ k ih =>
    intro n h
    rw [natDigits]
    split
    · simp
    · rename_i h2
      have hd : n / 10 < 10 ^ (k + 1) := by
        rw [Nat.div_lt_iff_lt_mul (by omega)]
        calc n < 10 ^ (k + 1 + 1) := h
        _ = 10 ^ (k + 1) * 10 := by ring
      have := ih (n / 10) hd
      simp only [List.length_append, List.length_singleton]
      omega

theorem headD_append_of_ne_nil {a : List Char} (b : List Char) (d : Char)
    (h : a ≠ []) : (a ++ b).headD d = a.headD d := by
  cases a with
  | nil => exact absurd rfl h
  | cons x xs => simp

theorem natDigits_head_ne_zero (n : Nat) (h : 1 ≤ n) :
    (natDigits n).headD '0' ≠ '0' := by
  induction n using natDigits.induct with
  | case1 n hlt =>
    rw [natDigits, if_pos hlt]
    revert h hlt
    revert n
    decide
  | case2 n hlt ih =>
    rw [natDigits, if_neg hlt, headD_append_of_ne_nil _ _ (natDigits_ne_nil _)]
    exact ih (by omega)

theorem natDigits_no_leading_zero (n : Nat) :
    ¬(1 < (natDigits n).length ∧ (natDigits n).headD '0' = '0') := by
  rcases Nat.eq_zero_or_pos n with rfl | hpos
  · rw [natDigits]
    decide
  · intro hcon
    exact natDigits_head_ne_zero n hpos hcon.2

theorem foldl_digits_replicate_zero (j : Nat) :
    List.foldl (fun a c => 10 * a + digitVal c) 0 (List.replicate j '0') = 0 := by
  induction j with
  | zero => rfl
  | succ j ih =>
    rw [List.replicate_succ, List.foldl_cons]
    simpa using ih

theorem digitsToNat_padDigits (k n : Nat) : digitsToNat (padDigits k n) = n := by
  rw [padDigits]
  show List.foldl _ 0 _ = n
  rw [List.foldl_append, foldl_digits_replicate_zero]
  exact digitsToNat_natDigits n

theorem padDigits_length {k n : Nat} (h : n < 10 ^ (k + 1)) :
    (padDigits (k + 1) n).length = k + 1 := by
  have := natDigits_length_le k n h
  simp only [padDigits, List.length_append, List.length_replicate]
  omega

theorem padDigits_digits (k n : Nat) : ∀ c ∈ padDigits k n, isDigitCh c = true := by
  intro c hc
  rcases List.mem_append.mp hc with h2 | h2
  · rw [List.eq_of_mem_replicate h2]
    decide
  · exact natDigits_digits n c h2

/-! ## Lemmas: hex digits, base64 -/

theorem hexVal_hexDigitChar : ∀ k, k < 16 → hexVal (hexDigitChar k) = some k := by decide

theorem b64c_ascii (i : Nat) : (b64c i).toNat < 128 := by
  rcases Nat.lt_or_ge i 64 with hi | hi
  · revert hi
    revert i
    decide
  · rw [b64c, List.getD_eq_default]
    · decide
    · simpa [b64Alphabet] using hi

theorem base64Encode_ascii (bs : List Nat) : ∀ c ∈ base64Encode bs, c.toNat < 128 := by
  induction bs using base64Encode.induct with
  | case1 => simp [base64Encode]
  | case2 b1 =>
    intro c hc
    rw [base64Encode] at hc
    simp only [List.mem_cons, List.not_mem_nil, or_false] at hc
    rcases hc with rfl | rfl | rfl | rfl | h
    · exact b64c_ascii _
    · exact b64c_ascii _
    · decide
    · decide
  | case3 b1 b2 =>
    intro c hc
    rw [base64Encode] at hc
    simp only [List.mem_cons, List.not_mem_nil, or_false] at hc
    rcases hc with rfl | rfl | rfl | rfl | h
    · exact b64c_ascii _
    · exact b64c_ascii _
    · exact b64c_ascii _
    · decide
  | case4 b1 b2 b3 rest ih =>
    intro c hc
    rw [base64Encode] at hc
    simp only [List.mem_cons, List.not_mem_nil, or_false] at hc
    rcases hc with rfl | rfl | rfl | rfl | h
    · exact b64c_ascii _
    · exact b64c_ascii _
    · exact b64c_ascii _
    · exact b64c_ascii _
    · exact ih c h

/-! ## Lemmas: UTF-8 round trip -/

theorem char_valid (c : Char) : c.toNat < 0xD800 ∨ (0xE000 ≤ c.toNat ∧ c.toNat < 0x110000) :=
  c.valid

theorem utf8Dec_encodeChar (c : Char) (bs : List Nat) :
    utf8Dec (utf8EncodeChar c ++ bs) = (utf8Dec bs).map (fun cs => c :: cs) := by
  have hv := char_valid c
  rw [utf8EncodeChar]
  by_cases h1 : c.toNat < 0x80
  · simp only [if_pos h1, List.cons_append, List.nil_append]
    rw [utf8Dec, if_pos h1, Char.ofNat_toNat]
  · by_cases h2 : c.toNat < 0x800
    · simp only [if_neg h1, if_pos h2, List.cons_append, List.nil_append]
      rw [utf8Dec, if_neg (by omega), if_pos (by constructor <;> omega), utf8Dec2,
        if_pos (by simp only [isCont, Bool.and_eq_true, decide_eq_true_eq]; omega)]
      have he : (0xC0 + c.toNat / 64 - 0xC0) * 64 + (0x80 + c.toNat % 64 - 0x80) = c.toNat := by
        omega
      rw [he, Char.ofNat_toNat]
    · by_cases h3 : c.toNat < 0x10000
      · simp only [if_neg h1, if_neg h2, if_pos h3, List.cons_append, List.nil_append]
        rw [utf8Dec, if_neg (by omega), if_neg (by omega), if_pos (by constructor <;> omega),
          utf8Dec3]
        have hcond : (u8lo (0xE0 + c.toNat / 4096) ≤ 0x80 + c.toNat / 64 % 64 ∧
            0x80 + c.toNat / 64 % 64 ≤ u8hi (0xE0 + c.toNat / 4096)) ∧
            isCont (0x80 + c.toNat % 64) = true := by
          refine ⟨⟨?_, ?_⟩, by simp only [isCont, Bool.and_eq_true, decide_eq_true_eq]; omega⟩
          · rw [u8lo]
            by_cases he0 : c.toNat / 4096 = 0
            · rw [if_pos (by omega)]
              omega
            · rw [if_neg (by omega), if_neg (by omega)]
              omega
          · rw [u8hi]
            by_cases hed : c.toNat / 4096 = 13
            · rw [if_pos (by omega)]
              omega
            · rw [if_neg (by omega), if_neg (by omega)]
              omega
        rw [if_pos hcond]
        have he : (0xE0 + c.toNat / 4096 - 0xE0) * 4096 + (0x80 + c.toNat / 64 % 64 - 0x80) * 64
            + (0x80 + c.toNat % 64 - 0x80) = c.toNat := by
          omega
        rw [he, Char.ofNat_toNat]
      · simp only [if_neg h1, if_neg h2, if_neg h3, List.cons_append, List.nil_append]
        rw [utf8Dec, if_neg (by omega), if_neg (by omega), if_neg (by omega),
          if_pos (by constructor <;> omega), utf8Dec4]
        have hcond : (u8lo (0xF0 + c.toNat / 262144) ≤ 0x80 + c.toNat / 4096 % 64 ∧
            0x80 + c.toNat / 4096 % 64 ≤ u8hi (0xF0 + c.toNat / 262144)) ∧
            isCont (0x80 + c.toNat / 64 % 64) = true ∧ isCont (0x80 + c.toNat % 64) = true := by
          refine ⟨⟨?_, ?_⟩,
            by simp only [isCont, Bool.and_eq_true, decide_eq_true_eq]; omega,
            by simp only [isCont, Bool.and_eq_true, decide_eq_true_eq]; omega⟩
          · rw [u8lo]
            by_cases hf0 : c.toNat / 262144 = 0
            · rw [if_neg (by omega), if_pos (by omega)]
              omega
            · rw [if_neg (by omega), if_neg (by omega)]
              omega
          · rw [u8hi]
            by_cases hf4 : c.toNat / 262144 = 4
            · rw [if_neg (by omega), if_pos (by omega)]
              omega
            · rw [if_neg (by omega), if_neg (by omega)]
              omega
        rw [if_pos hcond]
        have he : (0xF0 + c.toNat / 262144 - 0xF0) * 262144 +
            (0x80 + c.toNat / 4096 % 64 - 0x80) * 4096 +
            (0x80 + c.toNat / 64 % 64 - 0x80) * 64 + (0x80 + c.toNat % 64 - 0x80) = c.toNat := by
          omega
        rw [he, Char.ofNat_toNat]

theorem utf8Dec_encode_list (cs : List Char) :
    utf8Dec (cs.foldr (fun c acc => utf8EncodeChar c ++ acc) []) = some cs := by
  induction cs with
  | nil => rw [List.foldr_nil, utf8Dec]
  | cons c cs ih =>
    rw [List.foldr_cons, utf8Dec_encodeChar, ih]
    rfl

theorem utf8Dec_utf8Encode (s : String) : utf8Dec (utf8Encode s) = some s.data :=
  utf8Dec_encode_list s.data

/-! ## Lemmas: whitespace skipping and digit scanning -/

theorem skipWs_append_ws {ws : List Char} (s : List Char) (h : allWsL ws) :
    skipWs (ws ++ s) = skipWs s := by
  induction ws with
  | nil => rfl
  | cons c cs ih =>
    rw [List.cons_append, skipWs, List.dropWhile_cons, if_pos (h c (by simp))]
    exact ih (fun d hd => h d (by simp [hd]))

theorem skipWs_not_ws {c : Char} (s : List Char) (h : isWs c = false) :
    skipWs (c :: s) = c :: s := by
  rw [skipWs, List.dropWhile_cons, if_neg (by simp [h])]

theorem spanDigits_stop {s : List Char}
    (h : s = [] ∨ ∃ c cs, s = c :: cs ∧ isDigitCh c = false) : spanDigits s = ([], s) := by
  rcases h with rfl | ⟨c, cs, rfl, hc⟩
  · rfl
  · rw [spanDigits, if_neg (by simp [hc])]

theorem spanDigits_append {ds : List Char} (s : List Char)
    (hd : ∀ c ∈ ds, isDigitCh c = true) :
    spanDigits (ds ++ s) = (ds ++ (spanDigits s).1, (spanDigits s).2) := by
  induction ds with
  | nil => simp
  | cons c cs ih =>
    rw [List.cons_append, spanDigits, if_pos (hd c (by simp)),
      ih (fun d hdd => hd d (by simp [hdd]))]
    simp

theorem safeRest_facts {s : List Char} (h : safeRest s) :
    s = [] ∨ ∃ c cs, s = c :: cs ∧ isDigitCh c = false ∧ c ≠ '.' ∧ isWs c = false := by
  cases s with
  | nil => exact Or.inl rfl
  | cons c cs =>
    have h2 : c = ',' ∨ c = ']' ∨ c = '\x7d' := h
    right
    refine ⟨c, cs, rfl, ?_, ?_, ?_⟩ <;> rcases h2 with rfl | rfl | rfl <;> decide

theorem spanDigits_safe {s : List Char} (h : safeRest s) : spanDigits s = ([], s) := by
  apply spanDigits_stop
  rcases safeRest_facts h with rfl | ⟨c, cs, rfl, hc, _, _⟩
  · exact Or.inl rfl
  · exact Or.inr ⟨c, cs, rfl, hc⟩

/-! ## Lemmas: number serialization round trip -/

theorem natDigits_headD_ne_minus (n : Nat) (rest : List Char) (x : Char)
    (hx : isDigitCh x = false) : (natDigits n ++ rest).headD x ≠ '-' := by
  obtain ⟨c, cs, hc⟩ : ∃ c cs, natDigits n = c :: cs := by
    cases hn : natDigits n with
    | nil => exact absurd hn (natDigits_ne_nil n)
    | cons c cs => exact ⟨c, cs, rfl⟩
  have hdig := natDigits_digits n c (by rw [hc]; simp)
  rw [hc]
  simp only [List.cons_append, List.headD_cons]
  intro hcontra
  subst hcontra
  exact absurd hdig (by decide)

theorem parseNum_digits_core (m : Nat) (rest : List Char) (h : safeRest rest) :
    parseNum (natDigits m ++ rest) =
      some (.int (Int.ofNat m), rest) := by
  have hdigs := natDigits_digits m
  have hne : (natDigits m ++ rest).headD 'x' ≠ '-' :=
    natDigits_headD_ne_minus m rest 'x' (by decide)
  rw [parseNum]
  simp only [if_neg hne, decide_eq_true_eq]
  rw [spanDigits_append rest hdigs, spanDigits_safe h]
  simp only [List.append_nil]
  rw [if_neg (by simpa using natDigits_ne_nil m),
    if_neg (natDigits_no_leading_zero m)]
  rcases safeRest_facts h with rfl | ⟨c, cs, rfl, _, hdot, _⟩
  · rw [if_neg (by decide)]
    simp [digitsToNat_natDigits]
  · rw [if_neg (by simpa using hdot)]
    simp [digitsToNat_natDigits]

theorem parseNum_dumpInt (n : Int) (rest : List Char) (h : safeRest rest) :
    parseNum (dumpInt n ++ rest) = some (.int n, rest) := by
  rw [dumpInt]
  by_cases hn : n < 0
  · rw [if_pos hn, List.cons_append, parseNum]
    simp only [List.headD_cons, List.tail_cons, reduceIte, decide_True]
    have hdigs := natDigits_digits n.natAbs
    rw [spanDigits_append rest hdigs, spanDigits_safe h]
    simp only [List.append_nil]
    rw [if_neg (by simpa using natDigits_ne_nil n.natAbs),
      if_neg (natDigits_no_leading_zero n.natAbs)]
    have hdot : ¬(rest.headD 'x' = '.') := by
      rcases safeRest_facts h with rfl | ⟨c, cs, rfl, _, hd2, _⟩
      · decide
      · simpa using hd2
    rw [if_neg hdot]
    simp only [digitsToNat_natDigits]
    rw [show Int.ofNat n.natAbs = -n from Int.ofNat_natAbs_of_nonpos (le_of_lt hn)]
    simp
  · rw [if_neg hn]
    rw [parseNum_digits_core n.natAbs rest h]
    rw [show Int.ofNat n.natAbs = n from Int.natAbs_of_nonneg (by omega)]

theorem padDigits_ne_nil (k n : Nat) : padDigits k n ≠ [] := by
  simp only [padDigits]
  intro hcon
  rcases List.append_eq_nil.mp hcon with ⟨_, h2⟩
  exact natDigits_ne_nil n h2

theorem parseNum_fltCore (a d : Nat) (rest : List Char) (h : safeRest rest) :
    parseNum (natDigits (a / 10 ^ (d + 1)) ++
      '.' :: (padDigits (d + 1) (a % 10 ^ (d + 1)) ++ rest)) =
      some (.flt (Int.ofNat a) d, rest) := by
  have hrlt : a % 10 ^ (d + 1) < 10 ^ (d + 1) := Nat.mod_lt _ (Nat.pow_pos (by omega))
  have hne : (natDigits (a / 10 ^ (d + 1)) ++
      '.' :: (padDigits (d + 1) (a % 10 ^ (d + 1)) ++ rest)).headD 'x' ≠ '-' :=
    natDigits_headD_ne_minus _ _ 'x' (by decide)
  rw [parseNum]
  simp only [if_neg hne, decide_eq_true_eq]
  rw [spanDigits_append _ (natDigits_digits _),
    spanDigits_stop (Or.inr ⟨'.', _, rfl, by decide⟩)]
  simp only [List.append_nil, List.headD_cons, List.tail_cons]
  rw [if_neg (by simpa using natDigits_ne_nil (a / 10 ^ (d + 1))),
    if_neg (natDigits_no_leading_zero _)]
  simp only [if_true]
  rw [spanDigits_append _ (padDigits_digits _ _), spanDigits_safe h]
  simp only [List.append_nil]
  rw [if_neg (padDigits_ne_nil _ _), digitsToNat_natDigits, digitsToNat_padDigits,
    padDigits_length hrlt, Nat.div_add_mod']
  simp

theorem parseNum_dumpFlt (m : Int) (d : Nat) (rest : List Char) (h : safeRest rest) :
    parseNum (dumpFlt m d ++ rest) = some (.flt m d, rest) := by
  rw [dumpFlt]
  by_cases hm : m < 0
  · rw [if_pos hm]
    have hrlt : m.natAbs % 10 ^ (d + 1) < 10 ^ (d + 1) := Nat.mod_lt _ (Nat.pow_pos (by omega))
    simp only [List.cons_append, List.nil_append, List.append_assoc, List.singleton_append]
    rw [parseNum]
    simp only [List.headD_cons, List.tail_cons, reduceIte, decide_True]
    rw [spanDigits_append _ (natDigits_digits _),
      spanDigits_stop (Or.inr ⟨'.', _, rfl, by decide⟩)]
    simp only [List.append_nil, List.headD_cons, List.tail_cons]
    rw [if_neg (by simpa using natDigits_ne_nil (m.natAbs / 10 ^ (d + 1))),
      if_neg (natDigits_no_leading_zero _)]
    simp only [if_true]
    rw [spanDigits_append _ (padDigits_digits _ _), spanDigits_safe h]
    simp only [List.append_nil]
    rw [if_neg (padDigits_ne_nil _ _), digitsToNat_natDigits, digitsToNat_padDigits,
      padDigits_length hrlt, Nat.div_add_mod']
    rw [show Int.ofNat m.natAbs = -m from Int.ofNat_natAbs_of_nonpos (le_of_lt hm)]
    simp
  · rw [if_neg hm]
    simp only [List.nil_append, List.append_assoc, List.cons_append]
    rw [parseNum_fltCore m.natAbs d rest h,
      show Int.ofNat m.natAbs = m from Int.natAbs_of_nonneg (by omega)]

/-! ## Lemmas: string serialization round trip -/

theorem hex4Val_hex4 {n : Nat} (h : n < 0x10000) :
    hex4Val (hexDigitChar (n / 4096 % 16)) (hexDigitChar (n / 256 % 16))
      (hexDigitChar (n / 16 % 16)) (hexDigitChar (n % 16)) = some n := by
  rw [hex4Val, hexVal_hexDigitChar _ (by omega), hexVal_hexDigitChar _ (by omega),
    hexVal_hexDigitChar _ (by omega), hexVal_hexDigitChar _ (by omega)]
  simp only [Option.some.injEq]
  omega

theorem parseStrBody_dump (ea : Bool) (cs rest : List Char) :
    parseStrBody ((cs.foldr (fun c acc => escapeChar ea c ++ acc) []) ++ '"' :: rest) =
      some (cs, rest) := by
  induction cs with
  | nil => rw [List.foldr_nil, List.nil_append, parseStrBody]
  | cons c cs ih =>
    have hv := char_valid c
    rw [List.foldr_cons, List.append_assoc, escapeChar]
    by_cases h1 : c = '"'
    · subst h1
      rw [if_pos rfl]
      simp only [List.cons_append, List.nil_append]
      rw [parseStrBody, parseEsc, if_neg (by decide)]
      rw [show escCharOf '"' = some '"' from rfl]
      rw [ih]
      rfl
    · rw [if_neg h1]
      by_cases h2 : c = '\\'
      · subst h2
        rw [if_pos rfl]
        simp only [List.cons_append, List.nil_append]
        rw [parseStrBody, parseEsc, if_neg (by decide)]
        rw [show escCharOf '\\' = some '\\' from rfl]
        rw [ih]
        rfl
      · rw [if_neg h2]
        by_cases h3 : c = '\n'
        · subst h3
          rw [if_pos rfl]
          simp only [List.cons_append, List.nil_append]
          rw [parseStrBody, parseEsc, if_neg (by decide)]
          rw [show escCharOf 'n' = some '\n' from rfl]
          rw [ih]
          rfl
        · rw [if_neg h3]
          by_cases h4 : c = '\r'
          · subst h4
            rw [if_pos rfl]
            simp only [List.cons_append, List.nil_append]
            rw [parseStrBody, parseEsc, if_neg (by decide)]
            rw [show escCharOf 'r' = some '\r' from rfl]
            rw [ih]
            rfl
          · rw [if_neg h4]
            by_cases h5 : c = '\t'
            · subst h5
              rw [if_pos rfl]
              simp only [List.cons_append, List.nil_append]
              rw [parseStrBody, parseEsc, if_neg (by decide)]
              rw [show escCharOf 't' = some '\t' from rfl]
              rw [ih]
              rfl
            · rw [if_neg h5]
              by_cases h6 : c.toNat = 8
              · rw [if_pos h6]
                simp only [List.cons_append, List.nil_append]
                rw [parseStrBody, parseEsc, if_neg (by decide)]
                rw [show escCharOf 'b' = some (Char.ofNat 8) from rfl]
                rw [ih]
                have : Char.ofNat 8 = c := by
                  rw [show (8 : Nat) = c.toNat from h6.symm, Char.ofNat_toNat]
                rw [this]
                rfl
              · rw [if_neg h6]
                by_cases h7 : c.toNat = 12
                · rw [if_pos h7]
                  simp only [List.cons_append, List.nil_append]
                  rw [parseStrBody, parseEsc, if_neg (by decide)]
                  rw [show escCharOf 'f' = some (Char.ofNat 12) from rfl]
                  rw [ih]
                  have : Char.ofNat 12 = c := by
                    rw [show (12 : Nat) = c.toNat from h7.symm, Char.ofNat_toNat]
                  rw [this]
                  rfl
                · rw [if_neg h7]
                  by_cases h8 : c.toNat < 0x20
                  · rw [if_pos h8, hex4]
                    simp only [List.cons_append, List.nil_append]
                    rw [parseStrBody, parseEsc, if_pos rfl, parseU,
                      hex4Val_hex4 (show c.toNat < 0x10000 by omega)]
                    simp only [Option.some_bind]
                    rw [if_neg (by omega), if_neg (by omega), ih, Char.ofNat_toNat]
                    rfl
                  · rw [if_neg h8]
                    by_cases h9 : (ea = true ∧ 0x80 ≤ c.toNat)
                    · rw [if_pos h9]
                      by_cases h10 : c.toNat < 0x10000
                      · rw [if_pos h10, hex4]
                        simp only [List.cons_append, List.nil_append]
                        rw [parseStrBody, parseEsc, if_pos rfl, parseU,
                          hex4Val_hex4 h10]
                        simp only [Option.some_bind]
                        rw [if_neg (by omega), if_neg (by omega), ih, Char.ofNat_toNat]
                        rfl
                      · rw [if_neg h10, hex4, hex4]
                        simp only [List.cons_append, List.nil_append, List.append_assoc]
                        rw [parseStrBody, parseEsc, if_pos rfl, parseU]
                        rw [hex4Val_hex4 (show 0xD800 + (c.toNat - 0x10000) / 1024 < 0x10000
                            by omega)]
                        rw [Option.some_bind]
                        rw [if_pos (by constructor <;> omega)]
                        rw [parseLow]
                        rw [hex4Val_hex4 (show 0xDC00 + (c.toNat - 0x10000) % 1024 < 0x10000
                            by omega)]
                        rw [Option.some_bind]
                        rw [if_pos (by constructor <;> omega), ih]
                        rw [show 0x10000 + (0xD800 + (c.toNat - 0x10000) / 1024 - 0xD800) * 1024 +
                            (0xDC00 + (c.toNat - 0x10000) % 1024 - 0xDC00) = c.toNat by omega]
                        rw [Char.ofNat_toNat]
                        rfl
                    · rw [if_neg h9]
                      simp only [List.cons_append, List.nil_append]
                      have hq : ¬(c = '"') := h1
                      have hs : ¬(c = '\\') := h2
                      simp only [parseStrBody, hq, hs, if_neg h8, ih]
                      rfl

/-! ## Lemmas: the serializer-parser round trip -/

theorem foldr_escape_init (ea : Bool) (l init : List Char) :
    l.foldr (fun c acc => escapeChar ea c ++ acc) init =
      l.foldr (fun c acc => escapeChar ea c ++ acc) [] ++ init := by
  induction l with
  | nil => simp
  | cons c cs ih => simp [ih]

theorem dumpStr_decomp (ea : Bool) (s : String) (rest : List Char) :
    dumpStr ea s ++ rest =
      '"' :: (s.data.foldr (fun c acc => escapeChar ea c ++ acc) [] ++ '"' :: rest) := by
  rw [dumpStr, foldr_escape_init]
  simp

theorem parseStrBody_dumpStr (ea : Bool) (s : String) (rest : List Char) :
    parseStrBody (s.data.foldr (fun c acc => escapeChar ea c ++ acc) [] ++ '"' :: rest) =
      some (s.data, rest) :=
  parseStrBody_dump ea s.data rest

theorem goodCfg_compact : GoodCfg compactCfg :=
  ⟨⟨[], rfl, by intro c hc; cases hc⟩, ⟨[], rfl, by intro c hc; cases hc⟩⟩

theorem goodCfg_default : GoodCfg defaultCfg :=
  ⟨⟨[' '], rfl, by intro c hc; simp at hc; subst hc; decide⟩,
   ⟨[' '], rfl, by intro c hc; simp at hc; subst hc; decide⟩⟩

theorem goodCfg_ascii : GoodCfg asciiCfg :=
  ⟨⟨[' '], rfl, by intro c hc; simp at hc; subst hc; decide⟩,
   ⟨[' '], rfl, by intro c hc; simp at hc; subst hc; decide⟩⟩

theorem digit_head_facts {c : Char} (h : isDigitCh c = true) :
    isWs c = false ∧ c ≠ ']' ∧ c ≠ '\x7d' ∧ c ≠ 'n' ∧ c ≠ 't' ∧ c ≠ 'f' ∧ c ≠ '"' ∧
      c ≠ '[' ∧ c ≠ '\x7b' := by
  have hb : 48 ≤ c.toNat ∧ c.toNat ≤ 57 := by
    simpa [isDigitCh, Bool.and_eq_true, decide_eq_true_eq] using h
  have hws : isWs c = false := by
    rcases Bool.eq_false_or_eq_true (isWs c) with ht | hf
    · exfalso
      have hmem : ((c = ' ' ∨ c = '\t') ∨ c = '\n') ∨ c = '\r' := by
        simpa [isWs, Bool.or_eq_true, decide_eq_true_eq] using ht
      rcases hmem with ((rfl | rfl) | rfl) | rfl <;> exact absurd hb (by decide)
    · exact hf
  refine ⟨hws, ?_, ?_, ?_, ?_, ?_, ?_, ?_, ?_⟩ <;>
    (intro hcon; subst hcon; exact absurd hb (by decide))

/-- The first character of a serialized value: never whitespace, never a closer,
and for numbers a digit or minus sign. -/
theorem dumpValue_head (cfg : DumpCfg) (v : Value) :
    ∃ c cs, dumpValue cfg v = c :: cs ∧ isWs c = false ∧ c ≠ ']' ∧ c ≠ '\x7d' := by
  cases v with
  | null =>
    refine ⟨'n', _, rfl, ?_, ?_, ?_⟩ <;> decide
  | bool b =>
    cases b with
    | true => refine ⟨'t', _, rfl, ?_, ?_, ?_⟩ <;> decide
    | false => refine ⟨'f', _, rfl, ?_, ?_, ?_⟩ <;> decide
  | int n =>
    rw [dumpValue, dumpInt]
    by_cases hn : n < 0
    · rw [if_pos hn]
      refine ⟨'-', _, rfl, ?_, ?_, ?_⟩ <;> decide
    · rw [if_neg hn]
      obtain ⟨c, cs, hc⟩ : ∃ c cs, natDigits n.natAbs = c :: cs := by
        cases hd : natDigits n.natAbs with
        | nil => exact absurd hd (natDigits_ne_nil _)
        | cons c cs => exact ⟨c, cs, rfl⟩
      have hdig := natDigits_digits n.natAbs c (by rw [hc]; simp)
      obtain ⟨hws, h1, h2, _⟩ := digit_head_facts hdig
      exact ⟨c, cs, hc, hws, h1, h2⟩
  | flt m d =>
    rw [dumpValue, dumpFlt]
    by_cases hm : m < 0
    · rw [if_pos hm]
      exact ⟨'-', _, rfl, by decide, by decide, by decide⟩
    · rw [if_neg hm]
      obtain ⟨c, cs, hc⟩ : ∃ c cs, natDigits (m.natAbs / 10 ^ (d + 1)) = c :: cs := by
        cases hd : natDigits (m.natAbs / 10 ^ (d + 1)) with
        | nil => exact absurd hd (natDigits_ne_nil _)
        | cons c cs => exact ⟨c, cs, rfl⟩
      have hdig := natDigits_digits (m.natAbs / 10 ^ (d + 1)) c (by rw [hc]; simp)
      obtain ⟨hws, h1, h2, _⟩ := digit_head_facts hdig
      rw [List.nil_append, hc]
      exact ⟨c, _, rfl, hws, h1, h2⟩
  | str s =>
    rw [dumpValue, dumpStr]
    exact ⟨'"', _, rfl, by decide, by decide, by decide⟩
  | arr xs => exact ⟨'[', _, rfl, by decide, by decide, by decide⟩
  | obj kvs => exact ⟨'\x7b', _, rfl, by decide, by decide, by decide⟩

/-- Inputs that start with none of the keyword, string or bracket openers fall
through to the number parser. -/
theorem parseValue_other (fuel : Nat) (s : List Char) {c : Char} {cs : List Char}
    (hskip : skipWs s = c :: cs)
    (hc : c ≠ 'n' ∧ c ≠ 't' ∧ c ≠ 'f' ∧ c ≠ '"' ∧ c ≠ '[' ∧ c ≠ '\x7b') :
    parseValue (fuel + 1) s = parseNum (c :: cs) := by
  rw [parseValue, hskip]
  split
  · rename_i heq
    rw [List.cons.injEq] at heq
    exact absurd heq.1 hc.1
  · rename_i heq
    rw [List.cons.injEq] at heq
    exact absurd heq.1 hc.2.1
  · rename_i heq
    rw [List.cons.injEq] at heq
    exact absurd heq.1 hc.2.2.1
  · rename_i heq
    rw [List.cons.injEq] at heq
    exact absurd heq.1 hc.2.2.2.1
  · rename_i heq
    rw [List.cons.injEq] at heq
    exact absurd heq.1 hc.2.2.2.2.1
  · rename_i heq
    rw [List.cons.injEq] at heq
    exact absurd heq.1 hc.2.2.2.2.2
  · rfl

theorem Value.nodes_pos (v : Value) : 1 ≤ v.nodes := by
  cases v <;> simp [Value.nodes]

theorem numHead_facts {c : Char} (h : isDigitCh c = true ∨ c = '-') :
    isWs c = false ∧ c ≠ 'n' ∧ c ≠ 't' ∧ c ≠ 'f' ∧ c ≠ '"' ∧ c ≠ '[' ∧ c ≠ '\x7b' := by
  rcases h with hd | rfl
  · obtain ⟨hws, _, _, h4, h5, h6, h7, h8, h9⟩ := digit_head_facts hd
    exact ⟨hws, h4, h5, h6, h7, h8, h9⟩
  · exact ⟨by decide, by decide, by decide, by decide, by decide, by decide, by decide⟩

theorem dumpInt_head (n : Int) :
    ∃ c cs, dumpInt n = c :: cs ∧ (isDigitCh c = true ∨ c = '-') := by
  rw [dumpInt]
  by_cases hn : n < 0
  · rw [if_pos hn]
    exact ⟨'-', _, rfl, Or.inr rfl⟩
  · rw [if_neg hn]
    obtain ⟨c, cs, hc⟩ : ∃ c cs, natDigits n.natAbs = c :: cs := by
      cases hd : natDigits n.natAbs with
      | nil => exact absurd hd (natDigits_ne_nil _)
      | cons c cs => exact ⟨c, cs, rfl⟩
    exact ⟨c, cs, hc, Or.inl (natDigits_digits _ c (by rw [hc]; simp))⟩

theorem dumpFlt_head (m : Int) (d : Nat) :
    ∃ c cs, dumpFlt m d = c :: cs ∧ (isDigitCh c = true ∨ c = '-') := by
  rw [dumpFlt]
  by_cases hm : m < 0
  · rw [if_pos hm]
    exact ⟨'-', _, rfl, Or.inr rfl⟩
  · rw [if_neg hm, List.nil_append]
    obtain ⟨c, cs, hc⟩ : ∃ c cs, natDigits (m.natAbs / 10 ^ (d + 1)) = c :: cs := by
      cases hd : natDigits (m.natAbs / 10 ^ (d + 1)) with
      | nil => exact absurd hd (natDigits_ne_nil _)
      | cons c cs => exact ⟨c, cs, rfl⟩
    rw [hc]
    exact ⟨c, _, rfl, Or.inl (natDigits_digits _ c (by rw [hc]; simp))⟩

theorem parseValue_quote (fuel : Nat) (s : List Char) {cs : List Char}
    (hskip : skipWs s = '"' :: cs) :
    parseValue (fuel + 1) s = (parseStrBody cs).map (fun p => (Value.str ⟨p.1⟩, p.2)) := by
  rw [parseValue, hskip]
  rfl

theorem parseValue_arrCons (fuel : Nat) (s : List Char) {cs : List Char} {c : Char}
    {cs2 : List Char} (hskip : skipWs s = '[' :: cs) (hd : skipWs cs = c :: cs2)
    (hc : c ≠ ']') :
    parseValue (fuel + 1) s = (parseElems fuel cs).map (fun p => (Value.arr p.1, p.2)) := by
  rw [parseValue, hskip]
  show (match skipWs cs with
    | ']' :: r2 => some (Value.arr .nil, r2)
    | _ => (parseElems fuel cs).map (fun p => (Value.arr p.1, p.2))) =
    (parseElems fuel cs).map (fun p => (Value.arr p.1, p.2))
  rw [hd]
  split
  · rename_i heq
    rw [List.cons.injEq] at heq
    exact absurd heq.1 hc
  · rfl

theorem parseValue_objCons (fuel : Nat) (s : List Char) {cs : List Char} {c : Char}
    {cs2 : List Char} (hskip : skipWs s = '\x7b' :: cs) (hd : skipWs cs = c :: cs2)
    (hc : c ≠ '\x7d') :
    parseValue (fuel + 1) s = (parseMembers fuel cs).map (fun p => (Value.obj p.1, p.2)) := by
  rw [parseValue, hskip]
  show (match skipWs cs with
    | '\x7d' :: r2 => some (Value.obj .nil, r2)
    | _ => (parseMembers fuel cs).map (fun p => (Value.obj p.1, p.2))) =
    (parseMembers fuel cs).map (fun p => (Value.obj p.1, p.2))
  rw [hd]
  split
  · rename_i heq
    rw [List.cons.injEq] at heq
    exact absurd heq.1 hc
  · rfl

theorem parseValue_arrNil (fuel : Nat) (s : List Char) {cs r2 : List Char}
    (hskip : skipWs s = '[' :: cs) (hd : skipWs cs = ']' :: r2) :
    parseValue (fuel + 1) s = some (.arr .nil, r2) := by
  rw [parseValue, hskip]
  show (match skipWs cs with
    | ']' :: r2 => some (Value.arr .nil, r2)
    | _ => (parseElems fuel cs).map (fun p => (Value.arr p.1, p.2))) = some (.arr .nil, r2)
  rw [hd]
  rfl

theorem parseValue_objNil (fuel : Nat) (s : List Char) {cs r2 : List Char}
    (hskip : skipWs s = '\x7b' :: cs) (hd : skipWs cs = '\x7d' :: r2) :
    parseValue (fuel + 1) s = some (.obj .nil, r2) := by
  rw [parseValue, hskip]
  show (match skipWs cs with
    | '\x7d' :: r2 => some (Value.obj .nil, r2)
    | _ => (parseMembers fuel cs).map (fun p => (Value.obj p.1, p.2))) = some (.obj .nil, r2)
  rw [hd]
  rfl

theorem parseMembers_quote (fuel : Nat) (s : List Char) {cs : List Char}
    (hskip : skipWs s = '"' :: cs) :
    parseMembers (fuel + 1) s = (parseStrBody cs).bind (parseMembersKey fuel) := by
  rw [parseMembers, hskip]
  rfl

theorem parseElemsTail_comma (fuel : Nat) (v : Value) (ws1 X : List Char) :
    parseElemsTail fuel (v, ',' :: (ws1 ++ X)) =
      (parseElems fuel (ws1 ++ X)).map (fun p => (ValueList.cons v p.1, p.2)) := by
  rw [parseElemsTail, skipWs_not_ws _ (by decide)]
  rfl

theorem parseElemsTail_close (fuel : Nat) (v : Value) (rest : List Char) :
    parseElemsTail fuel (v, ']' :: rest) = some (.cons v .nil, rest) := by
  rw [parseElemsTail, skipWs_not_ws _ (by decide)]
  rfl

theorem parseMembersKey_colon (fuel : Nat) (k : List Char) (ws2 X : List Char) :
    parseMembersKey fuel (k, ':' :: (ws2 ++ X)) =
      (parseValue fuel (ws2 ++ X)).bind (parseMembersVal fuel ⟨k⟩) := by
  rw [parseMembersKey, skipWs_not_ws _ (by decide)]
  rfl

theorem parseMembersVal_comma (fuel : Nat) (k : String) (v : Value) (ws3 X : List Char) :
    parseMembersVal fuel k (v, ',' :: (ws3 ++ X)) =
      (parseMembers fuel (ws3 ++ X)).map (fun p => (Fields.cons k v p.1, p.2)) := by
  rw [parseMembersVal, skipWs_not_ws _ (by decide)]
  rfl

theorem parseMembersVal_close (fuel : Nat) (k : String) (v : Value) (rest : List Char) :
    parseMembersVal fuel k (v, '\x7d' :: rest) = some (.cons k v .nil, rest) := by
  rw [parseMembersVal, skipWs_not_ws _ (by decide)]
  rfl

theorem dumpElems_cons_decomp (cfg : DumpCfg) (w : Value) (xs : ValueList) :
    ∃ t, dumpElems cfg (.cons w xs) = dumpValue cfg w ++ t := by
  cases xs with
  | nil => exact ⟨[], by rw [dumpElems]; simp⟩
  | cons a b =>
    exact ⟨cfg.itemSep ++ dumpElems cfg (.cons a b), by rw [dumpElems, List.append_assoc]⟩

theorem dumpStr_head (ea : Bool) (s : String) : ∃ t, dumpStr ea s = '"' :: t :=
  ⟨_, rfl⟩

theorem dumpMembers_cons_head (cfg : DumpCfg) (k : String) (v : Value) (kvs : Fields) :
    ∃ t, dumpMembers cfg (.cons k v kvs) = '"' :: t := by
  obtain ⟨t0, ht0⟩ := dumpStr_head cfg.ensureAscii k
  cases kvs with
  | nil =>
    refine ⟨t0 ++ cfg.kvSep ++ dumpValue cfg v, ?_⟩
    rw [dumpMembers, ht0]
    simp only [List.cons_append, List.append_assoc]
  | cons k2 w2 rest =>
    refine ⟨t0 ++ cfg.kvSep ++ dumpValue cfg v ++ cfg.itemSep ++
      dumpMembers cfg (.cons k2 w2 rest), ?_⟩
    rw [dumpMembers, ht0]
    simp only [List.cons_append, List.append_assoc]

theorem skipWs_ws_head {ws : List Char} (hws : allWsL ws) (c : Char) (s : List Char)
    (hc : isWs c = false) : skipWs (ws ++ c :: s) = c :: s := by
  rw [skipWs_append_ws _ hws]
  exact skipWs_not_ws _ hc

/-- Parsing a dumped value (with optional leading whitespace and a safe
trailer) recovers the value, for any separator configuration json.dumps
actually uses, provided the fuel covers the node count. -/
theorem parse_dump_fuel (cfg : DumpCfg) (hcfg : GoodCfg cfg) : ∀ fuel : Nat,
    (∀ v : Value, v.nodes ≤ fuel → ∀ ws rest, allWsL ws → safeRest rest →
      parseValue fuel (ws ++ (dumpValue cfg v ++ rest)) = some (v, rest)) ∧
    (∀ xs : ValueList, xs ≠ .nil → xs.nodes ≤ fuel → ∀ ws rest, allWsL ws →
      parseElems fuel (ws ++ (dumpElems cfg xs ++ ']' :: rest)) = some (xs, rest)) ∧
    (∀ kvs : Fields, kvs ≠ .nil → kvs.nodes ≤ fuel → ∀ ws rest, allWsL ws →
      parseMembers fuel (ws ++ (dumpMembers cfg kvs ++ '\x7d' :: rest)) =
        some (kvs, rest)) := by
  intro fuel
  induction fuel with
  | zero =>
    refine ⟨fun v hv => absurd hv (by have := Value.nodes_pos v; omega), ?_, ?_⟩
    · intro xs hne hn
      exfalso
      cases xs with
      | nil => exact hne rfl
      | cons v xs2 =>
        have := Value.nodes_pos v
        simp only [ValueList.nodes] at hn
        omega
    · intro kvs hne hn
      exfalso
      cases kvs with
      | nil => exact hne rfl
      | cons k v kvs2 =>
        have := Value.nodes_pos v
        simp only [Fields.nodes] at hn
        omega
  | succ fuel ih =>
    obtain ⟨ihv, ihe, ihm⟩ := ih
    refine ⟨?_, ?_, ?_⟩
    · intro v hv ws rest hws hsafe
      cases v with
      | null =>
        rw [dumpValue]
        simp only [List.cons_append, List.nil_append]
        rw [parseValue, skipWs_ws_head hws 'n' _ (by decide)]
        rfl
      | bool b =>
        cases b with
        | true =>
          rw [dumpValue]
          simp only [List.cons_append, List.nil_append]
          rw [parseValue, skipWs_ws_head hws 't' _ (by decide)]
          rfl
        | false =>
          rw [dumpValue]
          simp only [List.cons_append, List.nil_append]
          rw [parseValue, skipWs_ws_head hws 'f' _ (by decide)]
          rfl
      | int n =>
        obtain ⟨c, cs, hc, hnum⟩ := dumpInt_head n
        obtain ⟨hwsc, h1, h2, h3, h4, h5, h6⟩ := numHead_facts hnum
        rw [dumpValue]
        have hskip : skipWs (ws ++ (dumpInt n ++ rest)) = c :: (cs ++ rest) := by
          rw [hc, List.cons_append]
          exact skipWs_ws_head hws c _ hwsc
        rw [parseValue_other fuel _ hskip ⟨h1, h2, h3, h4, h5, h6⟩]
        rw [show c :: (cs ++ rest) = dumpInt n ++ rest from by
          rw [hc, List.cons_append]]
        exact parseNum_dumpInt n rest hsafe
      | flt m d =>
        obtain ⟨c, cs, hc, hnum⟩ := dumpFlt_head m d
        obtain ⟨hwsc, h1, h2, h3, h4, h5, h6⟩ := numHead_facts hnum
        rw [dumpValue]
        have hskip : skipWs (ws ++ (dumpFlt m d ++ rest)) = c :: (cs ++ rest) := by
          rw [hc, List.cons_append]
          exact skipWs_ws_head hws c _ hwsc
        rw [parseValue_other fuel _ hskip ⟨h1, h2, h3, h4, h5, h6⟩]
        rw [show c :: (cs ++ rest) = dumpFlt m d ++ rest from by
          rw [hc, List.cons_append]]
        exact parseNum_dumpFlt m d rest hsafe
      | str s =>
        rw [dumpValue, dumpStr_decomp]
        rw [parseValue_quote fuel _ (skipWs_ws_head hws '"' _ (by decide)),
          parseStrBody_dumpStr]
        rfl
      | arr xs =>
        cases xs with
        | nil =>
          rw [dumpValue, dumpElems]
          simp only [List.nil_append, List.cons_append, List.singleton_append]
          exact parseValue_arrNil fuel _ (skipWs_ws_head hws '[' _ (by decide))
            (skipWs_not_ws _ (by decide))
        | cons w xs2 =>
          have hne : ValueList.cons w xs2 ≠ .nil := by intro h; cases h
          have hn1 : (ValueList.cons w xs2).nodes ≤ fuel := by
            simp only [Value.nodes] at hv
            omega
          obtain ⟨t, ht⟩ := dumpElems_cons_decomp cfg w xs2
          obtain ⟨c0, cs0, hc0, hws0, hne0, hne0b⟩ := dumpValue_head cfg w
          rw [dumpValue]
          simp only [List.cons_append, List.append_assoc, List.singleton_append,
            List.nil_append]
          have hskip2 : skipWs (dumpElems cfg (.cons w xs2) ++ ']' :: rest) =
              c0 :: (cs0 ++ (t ++ ']' :: rest)) := by
            rw [ht, hc0]
            simp only [List.cons_append, List.append_assoc]
            exact skipWs_not_ws _ hws0
          rw [parseValue_arrCons fuel _ (skipWs_ws_head hws '[' _ (by decide))
            hskip2 hne0]
          have he := ihe (.cons w xs2) hne hn1 [] rest (by intro c hc; cases hc)
          rw [List.nil_append] at he
          rw [he]
          rfl
      | obj kvs =>
        cases kvs with
        | nil =>
          rw [dumpValue, dumpMembers]
          simp only [List.nil_append, List.cons_append, List.singleton_append]
          exact parseValue_objNil fuel _ (skipWs_ws_head hws '\x7b' _ (by decide))
            (skipWs_not_ws _ (by decide))
        | cons k w kvs2 =>
          have hne : Fields.cons k w kvs2 ≠ .nil := by intro h; cases h
          have hn1 : (Fields.cons k w kvs2).nodes ≤ fuel := by
            simp only [Value.nodes] at hv
            omega
          obtain ⟨t, ht⟩ := dumpMembers_cons_head cfg k w kvs2
          rw [dumpValue]
          simp only [List.cons_append, List.append_assoc, List.singleton_append,
            List.nil_append]
          have hskip2 : skipWs (dumpMembers cfg (.cons k w kvs2) ++ '\x7d' :: rest) =
              '"' :: (t ++ '\x7d' :: rest) := by
            rw [ht, List.cons_append]
            exact skipWs_not_ws _ (by decide)
          rw [parseValue_objCons fuel _ (skipWs_ws_head hws '\x7b' _ (by decide))
            hskip2 (by decide)]
          have hm := ihm (.cons k w kvs2) hne hn1 [] rest (by intro c hc; cases hc)
          rw [List.nil_append] at hm
          rw [hm]
          rfl
    · intro xs hne hn ws rest hws
      cases xs with
      | nil => exact absurd rfl hne
      | cons v xs2 =>
        have hnv : v.nodes ≤ fuel := by
          simp only [ValueList.nodes] at hn
          omega
        cases xs2 with
        | nil =>
          rw [dumpElems, parseElems]
          rw [ihv v hnv ws (']' :: rest) hws (Or.inr (Or.inl rfl))]
          rw [Option.some_bind]
          exact parseElemsTail_close fuel v rest
        | cons w xs3 =>
          obtain ⟨ws1, hsep, hws1⟩ := hcfg.item
          have hnw : (ValueList.cons w xs3).nodes ≤ fuel := by
            simp only [ValueList.nodes] at hn ⊢
            omega
          rw [dumpElems, hsep]
          simp only [List.cons_append, List.append_assoc]
          rw [parseElems]
          rw [ihv v hnv ws
            (',' :: (ws1 ++ (dumpElems cfg (.cons w xs3) ++ ']' :: rest))) hws
            (Or.inl rfl)]
          rw [Option.some_bind, parseElemsTail_comma]
          have he := ihe (.cons w xs3) (by intro h; cases h) hnw ws1 rest hws1
          rw [he]
          rfl
    · intro kvs hne hn ws rest hws
      cases kvs with
      | nil => exact absurd rfl hne
      | cons k v kvs2 =>
        obtain ⟨ws2, hkv, hws2⟩ := hcfg.kv
        have hnv : v.nodes ≤ fuel := by
          simp only [Fields.nodes] at hn
          omega
        cases kvs2 with
        | nil =>
          rw [dumpMembers, hkv]
          simp only [List.cons_append, List.append_assoc]
          rw [dumpStr_decomp]
          rw [parseMembers_quote fuel _ (skipWs_ws_head hws '"' _ (by decide)),
            parseStrBody_dumpStr]
          rw [Option.some_bind, parseMembersKey_colon]
          rw [ihv v hnv ws2 ('\x7d' :: rest) hws2 (Or.inr (Or.inr rfl))]
          rw [Option.some_bind, parseMembersVal_close]
        | cons k2 w2 kvs3 =>
          obtain ⟨ws1, hsep, hws1⟩ := hcfg.item
          have hnw : (Fields.cons k2 w2 kvs3).nodes ≤ fuel := by
            simp only [Fields.nodes] at hn ⊢
            omega
          rw [dumpMembers, hkv, hsep]
          simp only [List.cons_append, List.append_assoc]
          rw [dumpStr_decomp]
          rw [parseMembers_quote fuel _ (skipWs_ws_head hws '"' _ (by decide)),
            parseStrBody_dumpStr]
          rw [Option.some_bind, parseMembersKey_colon]
          rw [ihv v hnv ws2
            (',' :: (ws1 ++ (dumpMembers cfg (.cons k2 w2 kvs3) ++ '\x7d' :: rest)))
            hws2 (Or.inl rfl)]
          rw [Option.some_bind, parseMembersVal_comma]
          have hm := ihm (.cons k2 w2 kvs3) (by intro h; cases h) hnw ws1 rest hws1
          rw [hm]
          rfl

mutual

theorem Value.nodes_le_dumpValue (cfg : DumpCfg) (hcfg : GoodCfg cfg) (v : Value) :
    v.nodes ≤ (dumpValue cfg v).length := by
  cases v with
  | null => simp [Value.nodes, dumpValue]
  | bool b => cases b <;> simp [Value.nodes, dumpValue]
  | int n =>
    simp only [Value.nodes, dumpValue, dumpInt]
    have hd := natDigits_ne_nil n.natAbs
    have hlen : 0 < (natDigits n.natAbs).length := List.length_pos.mpr hd
    by_cases hn : n < 0
    · rw [if_pos hn]
      simp only [List.length_cons]
      omega
    · rw [if_neg hn]
      omega
  | flt m d =>
    simp only [Value.nodes, dumpValue, dumpFlt, List.length_append, List.length_cons]
    omega
  | str s =>
    simp only [Value.nodes, dumpValue, dumpStr, List.length_cons]
    omega
  | arr xs =>
    have h := ValueList.nodes_le_dumpElems cfg hcfg xs
    simp only [Value.nodes, dumpValue, List.length_cons, List.length_append] at h ⊢
    omega
  | obj kvs =>
    have h := Fields.nodes_le_dumpMembers cfg hcfg kvs
    simp only [Value.nodes, dumpValue, List.length_cons, List.length_append] at h ⊢
    omega

theorem ValueList.nodes_le_dumpElems (cfg : DumpCfg) (hcfg : GoodCfg cfg) (xs : ValueList) :
    xs.nodes ≤ (dumpElems cfg xs).length + 1 := by
  cases xs with
  | nil => simp [ValueList.nodes]
  | cons v rest =>
    have hv := Value.nodes_le_dumpValue cfg hcfg v
    cases rest with
    | nil =>
      simp only [ValueList.nodes, dumpElems]
      omega
    | cons w rest2 =>
      have hrest := ValueList.nodes_le_dumpElems cfg hcfg (.cons w rest2)
      obtain ⟨ws1, hsep, _⟩ := hcfg.item
      have hslen : cfg.itemSep.length = ws1.length + 1 := by rw [hsep]; rfl
      simp only [ValueList.nodes, dumpElems, List.length_append] at hrest ⊢
      omega

theorem Fields.nodes_le_dumpMembers (cfg : DumpCfg) (hcfg : GoodCfg cfg) (kvs : Fields) :
    kvs.nodes ≤ (dumpMembers cfg kvs).length + 1 := by
  cases kvs with
  | nil => simp [Fields.nodes]
  | cons k v rest =>
    have hv := Value.nodes_le_dumpValue cfg hcfg v
    cases rest with
    | nil =>
      simp only [Fields.nodes, dumpMembers, List.length_append]
      omega
    | cons k2 w rest2 =>
      have hrest := Fields.nodes_le_dumpMembers cfg hcfg (.cons k2 w rest2)
      obtain ⟨ws1, hsep, _⟩ := hcfg.item
      have hslen : cfg.itemSep.length = ws1.length + 1 := by rw [hsep]; rfl
      simp only [Fields.nodes, dumpMembers, List.length_append] at hrest ⊢
      omega

end

/-- json.loads inverts json.dumps for any of the separator configurations
this client uses. -/
theorem jsonLoads_jsonDumps (cfg : DumpCfg) (hcfg : GoodCfg cfg) (v : Value) :
    jsonLoads (jsonDumps cfg v) = some v := by
  have hb : v.nodes ≤ (dumpValue cfg v).length + 1 := by
    have := Value.nodes_le_dumpValue cfg hcfg v
    omega
  have h := (parse_dump_fuel cfg hcfg ((dumpValue cfg v).length + 1)).1 v hb [] []
    (by intro c hc; cases hc) trivial
  rw [List.nil_append, List.append_nil] at h
  show jsonParse (dumpValue cfg v) = some v
  rw [jsonParse, h]
  rfl

/-! ## Lemmas: RSA chunking -/

theorem encryptBlock_length (ps msg : List Nat) : (encryptBlock ps msg).length = 128 := by
  simp [encryptBlock, i2osp128]

theorem chunks117_flatten (l : List Nat) : (chunks117 l).flatten = l := by
  induction l using chunks117.induct with
  | case1 => simp [chunks117]
  | case2 l h ih =>
    rw [chunks117, if_neg h]
    rw [List.flatten_cons, ih, List.take_append_drop]

theorem chunks117_length (l : List Nat) : (chunks117 l).length = (l.length + 116) / 117 := by
  induction l using chunks117.induct with
  | case1 => simp [chunks117]
  | case2 l h ih =>
    rw [chunks117, if_neg h]
    have hpos : 0 < l.length := List.length_pos.mpr h
    simp only [List.length_cons, ih, List.length_drop]
    omega

theorem chunks117_le (l : List Nat) : ∀ b ∈ chunks117 l, b.length ≤ 117 := by
  induction l using chunks117.induct with
  | case1 => simp [chunks117]
  | case2 l h ih =>
    rw [chunks117, if_neg h]
    intro b hb
    rcases List.mem_cons.mp hb with rfl | hb2
    · simp [List.length_take]
    · exact ih b hb2

theorem chunks117_getD (l : List Nat) :
    ∀ i, (chunks117 l).getD i [] = (l.drop (i * 117)).take 117 := by
  induction l using chunks117.induct with
  | case1 => simp [chunks117]
  | case2 l h ih =>
    rw [chunks117, if_neg h]
    intro i
    cases i with
    | zero => simp
    | succ j =>
      show (chunks117 (l.drop 117)).getD j [] = _
      rw [ih j, List.drop_drop, show 117 + j * 117 = (j + 1) * 117 from by ring]

theorem rsa_encrypt_eq_chunks (pads : Nat → List Nat) (pt : List Nat) :
    rsa_encrypt pads pt =
      ((List.range ((pt.length + 116) / 117)).map
        (fun i => encryptBlock (pads i) ((chunks117 pt).getD i []))).flatten := by
  show ((List.range ((pt.length + 116) / 117)).map
      (fun i => encryptBlock (pads i) ((pt.drop (i * 117)).take 117))).flatten = _
  refine congrArg List.flatten (List.map_congr_left ?_)
  intro i _
  rw [chunks117_getD]

theorem flatten_length_128 : ∀ bs : List (List Nat),
    (∀ b ∈ bs, b.length = 128) → bs.flatten.length = 128 * bs.length := by
  intro bs
  induction bs with
  | nil => simp
  | cons b rest ih =>
    intro h
    rw [List.flatten_cons, List.length_append, h b (by simp),
      ih (fun x hx => h x (by simp [hx])), List.length_cons]
    ring

theorem rsa_encrypt_length (pads : Nat → List Nat) (pt : List Nat) :
    (rsa_encrypt pads pt).length = 128 * ((pt.length + 116) / 117) := by
  rw [rsa_encrypt_eq_chunks]
  rw [flatten_length_128 _ (by
    intro b hb
    rw [List.mem_map] at hb
    obtain ⟨i, _, rfl⟩ := hb
    exact encryptBlock_length _ _)]
  rw [List.length_map, List.length_range]

/-! ## Lemmas: dict assignment, update and the credential roundtrip -/

theorem Fields.lookup_setKey_self : ∀ (f : Fields) (k : String) (v : Value),
    (f.setKey k v).lookup k = some v
  | .nil, k, v => by
    show (if k = k then some v else Fields.lookup .nil k) = some v
    rw [if_pos rfl]
  | .cons k2 w rest, k, v => by
    show Fields.lookup
      (if k2 = k then .cons k2 v rest else .cons k2 w (rest.setKey k v)) k = some v
    by_cases h : k2 = k
    · rw [if_pos h]
      show (if k2 = k then some v else rest.lookup k) = some v
      rw [if_pos h]
    · rw [if_neg h]
      show (if k2 = k then some w else (rest.setKey k v).lookup k) = some v
      rw [if_neg h]
      exact Fields.lookup_setKey_self rest k v

theorem Fields.lookup_setKey_other : ∀ (f : Fields) (k key : String) (v : Value),
    k ≠ key → (f.setKey k v).lookup key = f.lookup key
  | .nil, k, key, v, h => by simp [Fields.setKey, Fields.lookup, h]
  | .cons k2 w rest, k, key, v, h => by
    show Fields.lookup
      (if k2 = k then .cons k2 v rest else .cons k2 w (rest.setKey k v)) key =
      (if k2 = key then some w else rest.lookup key)
    by_cases h2 : k2 = k
    · rw [if_pos h2]
      show (if k2 = key then some v else rest.lookup key) =
        (if k2 = key then some w else rest.lookup key)
      rw [if_neg (h2 ▸ h), if_neg (h2 ▸ h)]
    · rw [if_neg h2]
      show (if k2 = key then some w else (rest.setKey k v).lookup key) =
        (if k2 = key then some w else rest.lookup key)
      by_cases h3 : k2 = key
      · rw [if_pos h3, if_pos h3]
      · rw [if_neg h3, if_neg h3]
        exact Fields.lookup_setKey_other rest k key v h

theorem Fields.lookup_update : ∀ (g f : Fields) (key : String),
    (f.update g).lookup key =
      match g.revLookup key with
      | some w => some w
      | none => f.lookup key
  | .nil, f, key => by simp [Fields.update, Fields.revLookup]
  | .cons k v rest, f, key => by
    rw [Fields.update, Fields.lookup_update rest (f.setKey k v) key, Fields.revLookup]
    cases hr : rest.revLookup key with
    | some w => rfl
    | none =>
      by_cases h : k = key
      · subst h
        rw [if_pos rfl, Fields.lookup_setKey_self]
      · rw [if_neg h, Fields.lookup_setKey_other f k key v h]

theorem load_auth_save_auth (m : Int) (t e : Value) (fs0 : FileState) :
    load_auth (save_auth m t e fs0) = .ok (some (.obj (authRecord m t e))) := by
  have h := jsonLoads_jsonDumps asciiCfg goodCfg_ascii (.obj (authRecord m t e))
  rw [jsonLoads] at h
  rw [save_auth, load_auth, utf8Dec_utf8Encode]
  show (match jsonParse (jsonDumps asciiCfg (.obj (authRecord m t e))).data with
    | none => (Except.ok none : Except PyErr (Option Value))
    | some v => Except.ok (some v)) = .ok (some (.obj (authRecord m t e)))
  rw [h]

/-! ## Lemmas: the compact dump adds no whitespace -/

theorem hexDigitChar_not_ws (k : Nat) (h : k < 16) : isWs (hexDigitChar k) = false := by
  interval_cases k <;> decide

theorem hex4_no_ws (n : Nat) : ∀ d ∈ hex4 n, isWs d = false := by
  intro d hd
  rw [hex4] at hd
  simp only [List.mem_cons, List.not_mem_nil, or_false] at hd
  rcases hd with rfl | rfl | rfl | rfl <;>
    exact hexDigitChar_not_ws _ (Nat.mod_lt _ (by omega))

theorem no_ws_pair (a b : Char) (ha : isWs a = false) (hb : isWs b = false) :
    ∀ d ∈ ([a, b] : List Char), isWs d = false := by
  intro d hd
  rcases List.mem_cons.mp hd with rfl | hd2
  · exact ha
  · rcases List.mem_cons.mp hd2 with rfl | h0
    · exact hb
    · exact absurd h0 (List.not_mem_nil d)

theorem no_ws_u_hex (n : Nat) : ∀ d ∈ '\\' :: 'u' :: hex4 n, isWs d = false := by
  intro d hd
  rcases List.mem_cons.mp hd with rfl | hd2
  · rfl
  · rcases List.mem_cons.mp hd2 with rfl | hd3
    · rfl
    · exact hex4_no_ws n d hd3

theorem escapeChar_no_ws (ea : Bool) (c : Char) (hc : c ≠ ' ') :
    ∀ d ∈ escapeChar ea c, isWs d = false := by
  rw [escapeChar]
  by_cases h1 : c = '"'
  · rw [if_pos h1]
    exact no_ws_pair _ _ (by decide) (by decide)
  rw [if_neg h1]
  by_cases h2 : c = '\\'
  · rw [if_pos h2]
    exact no_ws_pair _ _ (by decide) (by decide)
  rw [if_neg h2]
  by_cases h3 : c = '\n'
  · rw [if_pos h3]
    exact no_ws_pair _ _ (by decide) (by decide)
  rw [if_neg h3]
  by_cases h4 : c = '\r'
  · rw [if_pos h4]
    exact no_ws_pair _ _ (by decide) (by decide)
  rw [if_neg h4]
  by_cases h5 : c = '\t'
  · rw [if_pos h5]
    exact no_ws_pair _ _ (by decide) (by decide)
  rw [if_neg h5]
  by_cases h6 : c.toNat = 8
  · rw [if_pos h6]
    exact no_ws_pair _ _ (by decide) (by decide)
  rw [if_neg h6]
  by_cases h7 : c.toNat = 12
  · rw [if_pos h7]
    exact no_ws_pair _ _ (by decide) (by decide)
  rw [if_neg h7]
  by_cases h8 : c.toNat < 0x20
  · rw [if_pos h8]
    exact no_ws_u_hex _
  rw [if_neg h8]
  by_cases h9 : ea = true ∧ 0x80 ≤ c.toNat
  · rw [if_pos h9]
    by_cases h10 : c.toNat < 0x10000
    · rw [if_pos h10]
      exact no_ws_u_hex _
    · rw [if_neg h10]
      intro d hd
      rcases List.mem_append.mp hd with hd2 | hd2
      · exact no_ws_u_hex _ d hd2
      · exact no_ws_u_hex _ d hd2
  · rw [if_neg h9]
    intro d hd
    rcases List.mem_cons.mp hd with rfl | h0
    · simp only [isWs, Bool.or_eq_false_iff, decide_eq_false_iff_not]
      exact ⟨⟨⟨hc, h5⟩, h3⟩, h4⟩
    · exact absurd h0 (List.not_mem_nil d)

theorem dumpStr_no_ws (ea : Bool) (s : String) (h : ' ' ∉ s.data) :
    ∀ c ∈ dumpStr ea s, isWs c = false := by
  rw [dumpStr]
  intro c hc
  rcases List.mem_cons.mp hc with rfl | hc2
  · decide
  · have key : ∀ l : List Char, ' ' ∉ l →
        ∀ c ∈ l.foldr (fun c acc => escapeChar ea c ++ acc) ['"'], isWs c = false := by
      intro l
      induction l with
      | nil =>
        intro _ c hc
        simp only [List.foldr_nil, List.mem_singleton] at hc
        subst hc
        decide
      | cons a rest ih =>
        intro hl c hc
        rw [List.foldr_cons, List.mem_append] at hc
        rcases hc with hc | hc
        · refine escapeChar_no_ws ea a ?_ c hc
          intro he
          exact hl (he ▸ List.mem_cons_self a rest)
        · exact ih (fun hm => hl (List.mem_cons_of_mem a hm)) c hc
    exact key s.data h c hc2

theorem dumpInt_no_ws (n : Int) : ∀ c ∈ dumpInt n, isWs c = false := by
  intro c hc
  rw [dumpInt] at hc
  by_cases hn : n < 0
  · rw [if_pos hn] at hc
    rcases List.mem_cons.mp hc with rfl | hc2
    · decide
    · exact (digit_head_facts (natDigits_digits _ c hc2)).1
  · rw [if_neg hn] at hc
    exact (digit_head_facts (natDigits_digits _ c hc)).1

theorem dumpFlt_no_ws (m : Int) (d : Nat) : ∀ c ∈ dumpFlt m d, isWs c = false := by
  intro c hc
  rw [dumpFlt] at hc
  rw [List.mem_append, List.mem_append] at hc
  rcases hc with (hc | hc) | hc
  · by_cases hm : m < 0
    · rw [if_pos hm] at hc
      rw [List.mem_singleton] at hc
      subst hc
      decide
    · rw [if_neg hm] at hc
      exact absurd hc (List.not_mem_nil c)
  · exact (digit_head_facts (natDigits_digits _ c hc)).1
  · rcases List.mem_cons.mp hc with rfl | hc2
    · decide
    · exact (digit_head_facts (padDigits_digits _ _ c hc2)).1

mutual

theorem dumpValue_compact_no_ws (v : Value) (h : v.noSpace = true) :
    ∀ c ∈ dumpValue compactCfg v, isWs c = false := by
  cases v with
  | null =>
    intro c hc
    rw [dumpValue] at hc
    simp only [List.mem_cons, List.not_mem_nil, or_false] at hc
    rcases hc with rfl | rfl | rfl | rfl <;> decide
  | bool b =>
    intro c hc
    cases b <;> rw [dumpValue] at hc <;>
      simp only [List.mem_cons, List.not_mem_nil, or_false] at hc
    · rcases hc with rfl | rfl | rfl | rfl | rfl <;> decide
    · rcases hc with rfl | rfl | rfl | rfl <;> decide
  | int n =>
    rw [dumpValue]
    exact dumpInt_no_ws n
  | flt m d =>
    rw [dumpValue]
    exact dumpFlt_no_ws m d
  | str s =>
    rw [dumpValue]
    exact dumpStr_no_ws _ s (by simpa [Value.noSpace] using h)
  | arr xs =>
    intro c hc
    rw [dumpValue] at hc
    rcases List.mem_cons.mp hc with rfl | hc2
    · decide
    · rcases List.mem_append.mp hc2 with hc3 | hc3
      · exact dumpElems_compact_no_ws xs (by simpa [Value.noSpace] using h) c hc3
      · rw [List.mem_singleton] at hc3
        subst hc3
        decide
  | obj kvs =>
    intro c hc
    rw [dumpValue] at hc
    rcases List.mem_cons.mp hc with rfl | hc2
    · decide
    · rcases List.mem_append.mp hc2 with hc3 | hc3
      · exact dumpMembers_compact_no_ws kvs (by simpa [Value.noSpace] using h) c hc3
      · rw [List.mem_singleton] at hc3
        subst hc3
        decide

theorem dumpElems_compact_no_ws (xs : ValueList) (h : xs.noSpace = true) :
    ∀ c ∈ dumpElems compactCfg xs, isWs c = false := by
  cases xs with
  | nil =>
    intro c hc
    rw [dumpElems] at hc
    exact absurd hc (List.not_mem_nil c)
  | cons v rest =>
    cases rest with
    | nil =>
      rw [dumpElems]
      exact dumpValue_compact_no_ws v (by
        simp only [ValueList.noSpace, Bool.and_eq_true] at h
        exact h.1)
    | cons w rest2 =>
      intro c hc
      rw [dumpElems] at hc
      simp only [ValueList.noSpace, Bool.and_eq_true] at h
      rw [List.mem_append, List.mem_append] at hc
      rcases hc with (hc | hc) | hc
      · exact dumpValue_compact_no_ws v h.1 c hc
      · rw [show compactCfg.itemSep = [','] from rfl, List.mem_singleton] at hc
        subst hc
        decide
      · exact dumpElems_compact_no_ws (.cons w rest2) (by
          simp only [ValueList.noSpace, Bool.and_eq_true]
          exact h.2) c hc

theorem dumpMembers_compact_no_ws (kvs : Fields) (h : kvs.noSpace = true) :
    ∀ c ∈ dumpMembers compactCfg kvs, isWs c = false := by
  cases kvs with
  | nil =>
    intro c hc
    rw [dumpMembers] at hc
    exact absurd hc (List.not_mem_nil c)
  | cons k v rest =>
    cases rest with
    | nil =>
      intro c hc
      rw [dumpMembers] at hc
      simp only [Fields.noSpace, Bool.and_eq_true, decide_eq_true_eq] at h
      rw [List.mem_append, List.mem_append] at hc
      rcases hc with (hc | hc) | hc
      · exact dumpStr_no_ws _ k h.1.1 c hc
      · rw [show compactCfg.kvSep = [':'] from rfl, List.mem_singleton] at hc
        subst hc
        decide
      · exact dumpValue_compact_no_ws v h.1.2 c hc
    | cons k2 w rest2 =>
      intro c hc
      rw [dumpMembers] at hc
      simp only [Fields.noSpace, Bool.and_eq_true, decide_eq_true_eq] at h
      rw [List.mem_append, List.mem_append, List.mem_append, List.mem_append] at hc
      rcases hc with (((hc | hc) | hc) | hc) | hc
      · exact dumpStr_no_ws _ k h.1.1 c hc
      · rw [show compactCfg.kvSep = [':'] from rfl, List.mem_singleton] at hc
        subst hc
        decide
      · exact dumpValue_compact_no_ws v h.1.2 c hc
      · rw [show compactCfg.itemSep = [','] from rfl, List.mem_singleton] at hc
        subst hc
        decide
      · exact dumpMembers_compact_no_ws (.cons k2 w rest2) (by
          simp only [Fields.noSpace, Bool.and_eq_true, decide_eq_true_eq]
          exact h.2) c hc

end

/-! ## Lemmas: str.split and the share-id extraction -/

theorem breakOn_idEq_isSome : ∀ p t : List Char,
    (breakOn idEq (p ++ idEq ++ t)).isSome = true := by
  intro p
  induction p with
  | nil =>
    intro t
    rw [show ([] ++ idEq ++ t : List Char) = 'i' :: 'd' :: '=' :: t from rfl]
    rw [breakOn, if_pos (by simp [idEq, List.isPrefixOf])]
    rfl
  | cons c p2 ih =>
    intro t
    rw [show ((c :: p2) ++ idEq ++ t : List Char) = c :: (p2 ++ idEq ++ t) from by simp]
    rw [breakOn]
    by_cases hpre : idEq.isPrefixOf (c :: (p2 ++ idEq ++ t))
    · rw [if_pos hpre]
      rfl
    · rw [if_neg hpre]
      have := ih t
      cases hq : breakOn idEq (p2 ++ idEq ++ t) with
      | none => rw [hq] at this; exact absurd this (by simp)
      | some q => rfl

theorem breakOn_idEq_decomp : ∀ p t a b : List Char,
    breakOn idEq (p ++ idEq ++ t) = some (a, b) →
    (∃ p2, p = a ++ idEq ++ p2 ∧ b = p2 ++ idEq ++ t) ∨ (a = p ∧ b = t) := by
  intro p
  induction p with
  | nil =>
    intro t a b h
    rw [show ([] ++ idEq ++ t : List Char) = 'i' :: 'd' :: '=' :: t from rfl] at h
    rw [breakOn, if_pos (by simp [idEq, List.isPrefixOf])] at h
    rw [Option.some.injEq, Prod.mk.injEq] at h
    exact Or.inr ⟨h.1.symm, h.2.symm⟩
  | cons c p2 ih =>
    intro t a b h
    rw [show ((c :: p2) ++ idEq ++ t : List Char) = c :: (p2 ++ idEq ++ t) from by simp]
      at h
    rw [breakOn] at h
    by_cases hpre : idEq.isPrefixOf (c :: (p2 ++ idEq ++ t))
    · rw [if_pos hpre] at h
      match p2 with
      | [] =>
        rw [show ([] ++ idEq ++ t : List Char) = 'i' :: 'd' :: '=' :: t from rfl] at hpre
        simp [idEq, List.isPrefixOf] at hpre
      | [x] =>
        rw [show (([x] : List Char) ++ idEq ++ t) = x :: 'i' :: 'd' :: '=' :: t from by
          simp [idEq]] at hpre
        simp [idEq, List.isPrefixOf] at hpre
      | x :: y :: p3 =>
        rw [show ((x :: y :: p3 : List Char) ++ idEq ++ t) =
          x :: y :: (p3 ++ idEq ++ t) from by simp] at hpre h
        simp only [idEq, List.isPrefixOf, Bool.and_eq_true, beq_iff_eq] at hpre
        obtain ⟨h1, h2, h3, -⟩ := hpre
        subst h1
        subst h2
        subst h3
        rw [Option.some.injEq, Prod.mk.injEq] at h
        obtain ⟨ha, hb⟩ := h
        refine Or.inl ⟨p3, ?_, ?_⟩
        · rw [← ha]
          simp [idEq]
        · rw [← hb]
          rfl
    · rw [if_neg hpre] at h
      have hs := breakOn_idEq_isSome p2 t
      cases hq : breakOn idEq (p2 ++ idEq ++ t) with
      | none => rw [hq] at hs; exact absurd hs (by simp)
      | some q =>
        rw [hq] at h
        rw [Option.some.injEq, Prod.mk.injEq] at h
        obtain ⟨ha, hb⟩ := h
        rcases ih t q.1 q.2 (by rw [hq]) with ⟨p3, hp2, hb2⟩ | ⟨ha2, hb2⟩
        · refine Or.inl ⟨p3, ?_, ?_⟩
          · rw [← ha, hp2]
            simp
          · rw [← hb, hb2]
        · refine Or.inr ⟨?_, ?_⟩
          · rw [← ha, ha2]
          · rw [← hb, hb2]

theorem pySplit_none (sep s : List Char) (hsep : sep ≠ [])
    (hb : breakOn sep s = none) : pySplit sep s = [s] := by
  rw [pySplit, dif_neg hsep]
  split
  · rfl
  · rename_i p heq
    rw [hb] at heq
    cases heq

theorem pySplit_some (sep s a b : List Char) (hsep : sep ≠ [])
    (hb : breakOn sep s = some (a, b)) : pySplit sep s = a :: pySplit sep b := by
  rw [pySplit, dif_neg hsep]
  split
  · rename_i heq
    rw [hb] at heq
    cases heq
  · rename_i p heq
    rw [hb] at heq
    rw [Option.some.injEq] at heq
    subst heq
    rfl

theorem pySplit_ne_nil (sep s : List Char) : pySplit sep s ≠ [] := by
  rw [pySplit]
  by_cases hsep : sep = []
  · rw [dif_pos hsep]
    simp
  · rw [dif_neg hsep]
    split <;> simp

theorem getLastD_irrel : ∀ (l : List (List Char)) (d1 d2 : List Char), l ≠ [] →
    l.getLastD d1 = l.getLastD d2 := by
  intro l
  cases l with
  | nil => intro d1 d2 h; exact absurd rfl h
  | cons x rest => intro d1 d2 _; rfl

theorem pySplit_idEq_getLast : ∀ (n : Nat) (p : List Char), p.length ≤ n →
    ∀ t, containsSub idEq t = false →
    (pySplit idEq (p ++ idEq ++ t)).getLastD [] = t := by
  intro n
  induction n with
  | zero =>
    intro p hp t ht
    have hp0 : p = [] := List.eq_nil_of_length_eq_zero (Nat.le_zero.mp hp)
    subst hp0
    have hbt : breakOn idEq t = none := by
      rw [containsSub] at ht
      cases hq : breakOn idEq t with
      | none => rfl
      | some q => rw [hq] at ht; cases ht
    rw [show ([] ++ idEq ++ t : List Char) = 'i' :: 'd' :: '=' :: t from rfl]
    rw [pySplit_some idEq _ [] t (by decide) (by
      rw [breakOn, if_pos (by simp [idEq, List.isPrefixOf])]
      rfl)]
    rw [List.getLastD_cons, pySplit_none idEq t (by decide) hbt]
    rfl
  | succ n ih =>
    intro p hp t ht
    have hs := breakOn_idEq_isSome p t
    cases hq : breakOn idEq (p ++ idEq ++ t) with
    | none => rw [hq] at hs; exact absurd hs (by simp)
    | some q =>
      rw [pySplit_some idEq _ q.1 q.2 (by decide) (by rw [hq])]
      rw [List.getLastD_cons]
      rcases breakOn_idEq_decomp p t q.1 q.2 (by rw [hq]) with ⟨p2, hp2, hb⟩ | ⟨_, hb⟩
      · have hlen : p2.length ≤ n := by
          have := congrArg List.length hp2
          simp only [List.length_append, idEq, List.length_cons] at this
          omega
        rw [hb]
        rw [getLastD_irrel _ q.1 [] (by rw [pySplit]; rw [dif_neg (by decide)]; split <;> simp)]
        exact ih p2 hlen t ht
      · rw [hb]
        have hbt : breakOn idEq t = none := by
          rw [containsSub] at ht
          cases hq2 : breakOn idEq t with
          | none => rfl
          | some q2 => rw [hq2] at ht; cases ht
        rw [pySplit_none idEq t (by decide) hbt]
        rfl

theorem breakOn_amp_none_takeWhile : ∀ r : List Char, breakOn ['&'] r = none →
    r.takeWhile (fun c => c != '&') = r := by
  intro r
  induction r with
  | nil => intro _; rfl
  | cons d r2 ih =>
    intro h
    rw [breakOn] at h
    by_cases hd : d = '&'
    · rw [if_pos (by simp [List.isPrefixOf, hd])] at h
      cases h
    · rw [if_neg (by
        simp only [List.isPrefixOf, Bool.and_eq_true, beq_iff_eq]
        exact fun h2 => hd h2.1.symm)] at h
      have h2 : breakOn ['&'] r2 = none := by
        cases hq : breakOn ['&'] r2 with
        | none => rfl
        | some q => rw [hq] at h; cases h
      rw [List.takeWhile_cons, if_pos (by simp [hd]), ih h2]

theorem pySplit_amp_headD : ∀ t : List Char,
    (pySplit ['&'] t).headD [] = t.takeWhile (fun c => c != '&') := by
  intro t
  induction t with
  | nil =>
    rw [pySplit_none ['&'] [] (by decide) rfl]
    rfl
  | cons c r ih =>
    by_cases hc : c = '&'
    · subst hc
      rw [pySplit_some ['&'] ('&' :: r) [] r (by decide) (by
        rw [breakOn, if_pos (by simp [List.isPrefixOf])]
        rfl)]
      rw [List.headD_cons, List.takeWhile_cons]
      rw [if_neg (by simp)]
    · cases hbr : breakOn ['&'] r with
      | none =>
        rw [pySplit_none ['&'] (c :: r) (by decide) (by
          rw [breakOn, if_neg (by
            simp only [List.isPrefixOf, Bool.and_eq_true, beq_iff_eq]
            exact fun h2 => hc h2.1.symm), hbr])]
        rw [List.headD_cons, List.takeWhile_cons, if_pos (by simp [hc])]
        rw [breakOn_amp_none_takeWhile r hbr]
      | some q =>
        rw [pySplit_some ['&'] (c :: r) (c :: q.1) q.2 (by decide) (by
          rw [breakOn, if_neg (by
            simp only [List.isPrefixOf, Bool.and_eq_true, beq_iff_eq]
            exact fun h2 => hc h2.1.symm), hbr])]
        rw [List.headD_cons, List.takeWhile_cons, if_pos (by simp [hc])]
        rw [pySplit_some ['&'] r q.1 q.2 (by decide) (by rw [hbr])] at ih
        rw [List.headD_cons] at ih
        rw [ih]

theorem containsSub_idEq_append (p t : List Char) :
    containsSub idEq (p ++ idEq ++ t) = true := by
  rw [containsSub]
  exact breakOn_idEq_isSome p t

theorem unquoteChars_no_pct : ∀ s : List Char, '%' ∉ s → unquoteChars s = s := by
  intro s
  induction s using unquoteChars.induct with
  | case1 =>
    intro _
    rw [unquoteChars.eq_def]
  | case2 a b rest va vb hva hvb ih =>
    intro hmem
    exact absurd (by simp : '%' ∈ '%' :: a :: b :: rest) hmem
  | case3 a b rest h ih =>
    intro hmem
    exact absurd (by simp : '%' ∈ '%' :: a :: b :: rest) hmem
  | case4 c rest h ih =>
    intro hmem
    rw [unquoteChars.eq_def]
    split
    · rename_i heq
      cases heq
    · rename_i a b r heq
      rw [heq] at hmem
      exact absurd (by simp) hmem
    · rename_i x r hne heq
      rw [List.cons.injEq] at heq
      obtain ⟨rfl, rfl⟩ := heq
      rw [ih (fun hm => hmem (List.mem_cons_of_mem c hm))]

/-- Whatever the file state, a successful _make_base_form result is the fixed
seven-field envelope for some token value. -/
theorem make_base_form_shape (fs : FileState) (mid : Int) (tk : String)
    (base : Fields) (h : _make_base_form fs mid tk = .ok base) :
    ∃ tok, base = baseFields mid tok := by
  rw [_make_base_form] at h
  by_cases htk : tk = ""
  · rw [if_pos htk] at h
    cases ha : load_auth fs with
    | error e =>
      rw [ha] at h
      simp only [Bind.bind, Except.bind] at h
      exact Except.noConfusion h
    | ok auth =>
      rw [ha] at h
      simp only [Bind.bind, Except.bind] at h
      cases ht : tokenOfAuth auth tk with
      | error e =>
        rw [ht] at h
        exact Except.noConfusion h
      | ok tok =>
        rw [ht] at h
        simp only [pure, Except.pure, Except.ok.injEq] at h
        exact ⟨tok, h.symm⟩
  · rw [if_neg htk] at h
    simp only [Bind.bind, Except.bind, pure, Except.pure] at h
    rw [tokenOfAuth, if_pos htk] at h
    simp only [Except.ok.injEq] at h
    exact ⟨.str tk, h.symm⟩

/-- The id= branch of parse_share_id: with the stripped input decomposed around
its last id= occurrence, the result is the URL-decoded run up to the next
ampersand. -/
theorem parse_share_id_idcase (s : String) (p t : List Char)
    (hdec : pyStrip s.data = p ++ idEq ++ t) (hnt : containsSub idEq t = false) :
    parse_share_id s = ⟨unquoteChars (t.takeWhile (fun c => c != '&'))⟩ := by
  simp only [parse_share_id]
  rw [hdec, if_pos (by rw [containsSub_idEq_append])]
  rw [pySplit_idEq_getLast p.length p le_rfl t hnt, pySplit_amp_headD t]

/-- The raw branch of parse_share_id: without id= the stripped input is only
URL-decoded. -/
theorem parse_share_id_rawcase (s : String)
    (h : containsSub idEq (pyStrip s.data) = false) :
    parse_share_id s = ⟨unquoteChars (pyStrip s.data)⟩ := by
  simp only [parse_share_id]
  rw [if_neg (by rw [h]; simp)]

/-! ## The claims -/

/-- C1: rsa_encrypt splits the plaintext into consecutive blocks of at most
117 bytes (chunks117, whose concatenation is exactly the plaintext), encrypts
each block independently with its own pad run, and returns the concatenation
of the per-block ciphertexts in block order with no framing or length prefix;
the number of blocks is ceil(L/117) = (L+116)/117, every ciphertext block is
exactly 128 bytes, the total output length is 128 * ceil(L/117), and empty
plaintext yields empty output. -/
theorem C1_rsa_encrypt_chunking (pads : Nat → List Nat) (pt : List Nat) :
    (chunks117 pt).flatten = pt ∧
    (∀ b ∈ chunks117 pt, b.length ≤ 117) ∧
    (chunks117 pt).length = (pt.length + 116) / 117 ∧
    rsa_encrypt pads pt =
      ((List.range ((pt.length + 116) / 117)).map
        (fun i => encryptBlock (pads i) ((chunks117 pt).getD i []))).flatten ∧
    (∀ ps msg, (encryptBlock ps msg).length = 128) ∧
    (rsa_encrypt pads pt).length = 128 * ((pt.length + 116) / 117) ∧
    rsa_encrypt pads [] = [] :=
  ⟨chunks117_flatten pt, chunks117_le pt, chunks117_length pt,
   rsa_encrypt_eq_chunks pads pt, encryptBlock_length,
   rsa_encrypt_length pads pt, rfl⟩

/-- C2 counterexample: RSAES-PKCS1-v1_5 encryption is randomized, not
deterministic. psA and psB are both pad runs the library may draw for a
one-byte plaintext (and their 123-byte prefixes for the two-byte plaintext
that encrypt_form produces from the empty dict), yet the ciphertexts differ,
so two invocations of rsa_encrypt (and of encrypt_form on the same mapping)
need not produce identical output. -/
theorem C2_randomized_counterexample :
    validPS psA 1 ∧ validPS psB 1 ∧
    rsa_encrypt (fun _ => psA) [123] ≠ rsa_encrypt (fun _ => psB) [123] ∧
    validPS (psA.take 123) 2 ∧ validPS (psB.take 123) 2 ∧
    encrypt_form (fun _ => psA.take 123) .nil ≠
      encrypt_form (fun _ => psB.take 123) .nil :=
  ⟨by constructor <;> decide, by constructor <;> decide, by decide,
   by constructor <;> decide, by constructor <;> decide, by decide⟩

/-- C2 (amended): rsa_encrypt is deterministic only once the library's random
pad draws are fixed: its output is a function of the plaintext and the pad
runs used for the blocks actually encrypted, and encrypt_form likewise. -/
theorem C2_deterministic_given_pads (pads1 pads2 : Nat → List Nat)
    (pt : List Nat) :
    ((∀ i < (pt.length + 116) / 117, pads1 i = pads2 i) →
      rsa_encrypt pads1 pt = rsa_encrypt pads2 pt) ∧
    (∀ form : Fields, (∀ i, pads1 i = pads2 i) →
      encrypt_form pads1 form = encrypt_form pads2 form) := by
  constructor
  · intro h
    show ((List.range ((pt.length + 116) / 117)).map
        (fun i => encryptBlock (pads1 i) ((pt.drop (i * 117)).take 117))).flatten =
      ((List.range ((pt.length + 116) / 117)).map
        (fun i => encryptBlock (pads2 i) ((pt.drop (i * 117)).take 117))).flatten
    refine congrArg List.flatten (List.map_congr_left ?_)
    intro i hi
    rw [List.mem_range] at hi
    rw [h i hi]
  · intro form h
    have hp : pads1 = pads2 := funext h
    rw [hp]

/-- C3: the base envelope of every authenticated call carries exactly the
seven fields interfaceVersion 20240918 (int), skey "testskey", phoneType
"Android", memberId (the caller's member id), clientType 2, languageType 1 and
token; with no explicit token the builder loads the stored Credential Record
and uses its token field, falling back to the empty string when no record is
stored, and the member id callers obtain from the record (_get_member_id) is
the record's member_id. -/
theorem C3_base_envelope (mid : Int) :
    _make_base_form .absent mid "" = .ok (baseFields mid (.str "")) ∧
    _make_base_form .osError mid "" = .ok (baseFields mid (.str "")) ∧
    (∀ (m : Int) (t e : String),
      _make_base_form (save_auth m (.str t) (.str e) .absent) mid "" =
        .ok (baseFields mid (.str t)) ∧
      (m ≠ 0 → _get_member_id (save_auth m (.str t) (.str e) .absent) =
        .ok (some m))) ∧
    (∀ tok : Value,
      (baseFields mid tok).lookup "interfaceVersion" = some (.int 20240918) ∧
      (baseFields mid tok).lookup "skey" = some (.str "testskey") ∧
      (baseFields mid tok).lookup "phoneType" = some (.str "Android") ∧
      (baseFields mid tok).lookup "memberId" = some (.int mid) ∧
      (baseFields mid tok).lookup "clientType" = some (.int 2) ∧
      (baseFields mid tok).lookup "languageType" = some (.int 1) ∧
      (baseFields mid tok).lookup "token" = some tok) := by
  refine ⟨rfl, rfl, ?_, ?_⟩
  · intro m t e
    have hl := load_auth_save_auth m (.str t) (.str e) .absent
    constructor
    · rw [_make_base_form, if_pos rfl, hl]
      rfl
    · intro hm
      simp only [_get_member_id, hl, Bind.bind, Except.bind]
      simp [authRecord, Fields.getD, Fields.lookup, pyTruthy, pyInt, hm]
      rfl
  · intro tok
    exact ⟨rfl, rfl, rfl, rfl, rfl, rfl, rfl⟩

/-- C4: login returns the full response unchanged in both branches; it writes
the Credential Record — member.tableId as member id, the response token,
member.email (with the login email as default) — via save_auth, leaving a file
with mode 0600 whose content replaces any prior state, exactly when the
response's result field equals "success"; on any other result the file state
is untouched. -/
theorem C4_login_persists_iff_success (pads : Nat → List Nat)
    (email password : String) (kvs : Fields) (fs : FileState) :
    (∀ (mkvs : Fields) (mid : Int),
      kvs.getD "member" (.obj .nil) = .obj mkvs →
      mkvs.getD "tableId" (.int 0) = .int mid →
      kvs.lookup "result" = some (.str "success") →
      login pads email password (.obj kvs) fs =
        .ok (.obj kvs, save_auth mid (kvs.getD "token" (.str ""))
            (mkvs.getD "email" (.str email)) fs) ∧
      save_auth mid (kvs.getD "token" (.str "")) (mkvs.getD "email" (.str email)) fs =
        .content (utf8Encode (jsonDumps asciiCfg (.obj (authRecord mid
          (kvs.getD "token" (.str "")) (mkvs.getD "email" (.str email)))))) 0o600) ∧
    (kvs.lookup "result" ≠ some (.str "success") →
      login pads email password (.obj kvs) fs = .ok (.obj kvs, fs)) := by
  constructor
  · intro mkvs mid hm hid hres
    constructor
    · simp only [login]
      rw [if_pos hres]
      simp only [hm]
      rw [hid]
      rfl
    · rfl
  · intro hres
    simp only [login]
    rw [if_neg hres]

/-- C5: encrypt_form serializes the mapping with json.dumps using the compact
separators (so, for a mapping whose strings contain no space character, the
serialized text contains no whitespace at all), encodes it as UTF-8, runs the
bytes through the chunked RSA encryption, base64-encodes the result into an
ASCII string, and that string is what _post turns verbatim into the raw POST
body bytes. -/
theorem C5_encrypt_form_pipeline (pads : Nat → List Nat) (form : Fields)
    (ep : String) :
    encrypt_form pads form =
      ⟨base64Encode (rsa_encrypt pads (utf8Encode (jsonDumps compactCfg (.obj form))))⟩ ∧
    (Value.noSpace (.obj form) = true →
      ∀ c ∈ (jsonDumps compactCfg (.obj form)).data, isWs c = false) ∧
    (∀ c ∈ (encrypt_form pads form).data, c.toNat < 128) ∧
    (_post ep (.str (encrypt_form pads form)) true).data =
      .bytes (utf8Encode (encrypt_form pads form)) := by
  refine ⟨rfl, ?_, ?_, rfl⟩
  · intro h
    show ∀ c ∈ dumpValue compactCfg (.obj form), isWs c = false
    exact dumpValue_compact_no_ws _ h
  · show ∀ c ∈ base64Encode (rsa_encrypt pads (utf8Encode
      (jsonDumps compactCfg (.obj form)))), c.toNat < 128
    exact base64Encode_ascii _

/-- C6: parse_share_id strips the input; when "id=" occurs it takes the text
after the last "id=" up to the next "&" (or the end) and URL-decodes it —
stated generally for any stripped input of the form p ++ "id=" ++ t with no
further "id=" in t — and an input without "id=" is returned unchanged apart
from URL-decoding; on the spec's examples a share URL yields ABC123, a raw id
is unchanged, and a percent-encoded id is decoded. -/
theorem C6_parse_share_id (s : String) :
    (∀ p t : List Char, pyStrip s.data = p ++ idEq ++ t →
      containsSub idEq t = false →
      parse_share_id s = ⟨unquoteChars (t.takeWhile (fun c => c != '&'))⟩) ∧
    (containsSub idEq (pyStrip s.data) = false →
      parse_share_id s = ⟨unquoteChars (pyStrip s.data)⟩) ∧
    parse_share_id "https://share.example/x?id=ABC123&foo=1" = "ABC123" ∧
    parse_share_id "ABC123" = "ABC123" ∧
    parse_share_id "AB%2F12" = "AB/12" := by
  refine ⟨fun p t => parse_share_id_idcase s p t, parse_share_id_rawcase s, ?_, ?_, ?_⟩
  · rw [parse_share_id_idcase "https://share.example/x?id=ABC123&foo=1"
      ("https://share.example/x?".data) ("ABC123&foo=1".data) (by decide) (by decide)]
    rw [show List.takeWhile (fun c => c != '&') (String.data "ABC123&foo=1") =
      ['A', 'B', 'C', '1', '2', '3'] from by decide]
    rw [unquoteChars_no_pct _ (by decide)]
  · rw [parse_share_id_rawcase "ABC123" (by decide)]
    rw [show pyStrip (String.data "ABC123") = ['A', 'B', 'C', '1', '2', '3'] from
      by decide]
    rw [unquoteChars_no_pct _ (by decide)]
  · rw [parse_share_id_rawcase "AB%2F12" (by decide)]
    rw [show pyStrip (String.data "AB%2F12") = ['A', 'B', '%', '2', 'F', '1', '2'] from
      by decide]
    rw [unquoteChars.eq_def]
    show String.mk ('A' :: unquoteChars ['B', '%', '2', 'F', '1', '2']) = "AB/12"
    rw [unquoteChars.eq_def]
    show String.mk ('A' :: 'B' :: unquoteChars ['%', '2', 'F', '1', '2']) = "AB/12"
    rw [unquoteChars.eq_def]
    show String.mk ('A' :: 'B' :: (utf8DecReplace (47 :: (pctRun ['1', '2']).1) ++
      unquoteChars (pctRun ['1', '2']).2)) = "AB/12"
    show String.mk ('A' :: 'B' :: (utf8DecReplace [47] ++ unquoteChars ['1', '2'])) =
      "AB/12"
    rw [utf8DecReplace.eq_def]
    show String.mk ('A' :: 'B' :: (('/' :: utf8DecReplace []) ++
      unquoteChars ['1', '2'])) = "AB/12"
    rw [utf8DecReplace.eq_def]
    rw [unquoteChars_no_pct ['1', '2'] (by decide)]
    rfl

/-- C7: whenever create_recipe builds its envelope, the envelope carries a
pourDataJSONStr field whose value is the string json.dumps produces from the
pour list with compact separators, and parsing that string with json.loads
reproduces the pour list exactly, order preserved (the envelope itself is
later serialized as JSON, so the pour list is JSON text inside JSON). -/
theorem C7_pour_list_double_json (fs : FileState) (now_ms member_id : Int)
    (name : String) (dose grand_water grinder_size : Value)
    (rpm cup_type adapted_model is_enable_bypass_water is_set_grinder_size : Int)
    (the_color : String) (the_subset_id : Int) (bypass_temp bypass_volume : Value)
    (pl : ValueList) :
    (∀ form, create_recipe_form fs now_ms member_id name dose grand_water
        grinder_size rpm cup_type adapted_model is_enable_bypass_water
        is_set_grinder_size the_color the_subset_id bypass_temp bypass_volume
        (some pl) = .ok form →
      form.lookup "pourDataJSONStr" =
        some (.str (jsonDumps compactCfg (.arr pl)))) ∧
    jsonLoads (jsonDumps compactCfg (.arr pl)) = some (.arr pl) ∧
    (∃ form, create_recipe_form .absent now_ms member_id name dose grand_water
        grinder_size rpm cup_type adapted_model is_enable_bypass_water
        is_set_grinder_size the_color the_subset_id bypass_temp bypass_volume
        (some pl) = .ok form) := by
  refine ⟨?_, jsonLoads_jsonDumps compactCfg goodCfg_compact (.arr pl), ?_⟩
  · intro form hform
    rw [create_recipe_form] at hform
    cases hb : _make_base_form fs member_id "" with
    | error e =>
      rw [hb] at hform
      exact absurd hform (by simp [Bind.bind, Except.bind])
    | ok base =>
      rw [hb] at hform
      simp only [Bind.bind, Except.bind, pure, Except.pure, Except.ok.injEq] at hform
      subst hform
      rw [Fields.lookup_update]
      rfl
  · exact ⟨_, rfl⟩

/-- C8: the list_my_recipes envelope always carries pageNumber 1 and
countPerPage 100; the adaptedModel field is present and equal to the filter
exactly when the filter value is truthy (nonzero), and is omitted entirely
when it is 0 (witnessed concretely by the filter values 2 and 0 on an absent
credential file). -/
theorem C8_list_my_recipes_filter (fs : FileState) (mid am : Int) :
    (∀ form, list_my_recipes_form fs mid am = .ok form →
      form.lookup "pageNumber" = some (.int 1) ∧
      form.lookup "countPerPage" = some (.int 100) ∧
      (am = 0 → form.hasKey "adaptedModel" = false) ∧
      (am ≠ 0 → form.lookup "adaptedModel" = some (.int am))) ∧
    (∃ form, list_my_recipes_form .absent mid 2 = .ok form) ∧
    (∃ form, list_my_recipes_form .absent mid 0 = .ok form) := by
  refine ⟨?_, ⟨_, rfl⟩, ⟨_, rfl⟩⟩
  intro form hform
  rw [list_my_recipes_form] at hform
  cases hb : _make_base_form fs mid "" with
  | error e =>
    rw [hb] at hform
    simp only [Bind.bind, Except.bind] at hform
    exact Except.noConfusion hform
  | ok base =>
    obtain ⟨tok, rfl⟩ := make_base_form_shape fs mid "" base hb
    rw [hb] at hform
    simp only [Bind.bind, Except.bind, pure, Except.pure, Except.ok.injEq] at hform
    subst hform
    by_cases ham : am = 0
    · subst ham
      rw [if_neg (by simp)]
      refine ⟨?_, ?_, fun _ => ?_, fun hne => absurd rfl hne⟩ <;> rfl
    · rw [if_pos ham]
      refine ⟨?_, ?_, fun h0 => absurd h0 ham, fun _ => ?_⟩
      · rw [Fields.lookup_setKey_other _ _ _ _ (by decide)]
        rfl
      · rw [Fields.lookup_setKey_other _ _ _ _ (by decide)]
        rfl
      · rw [Fields.lookup_setKey_self]

/-- C9: the request _post hands to the transport: an encrypted call's string
body becomes the POST body bytes verbatim (UTF-8 of the base64 string, no
JSON wrapping); an unencrypted call's body is JSON-encoded with json.dumps
defaults (ensure_ascii False) and additionally carries the fixed Referer
header; both carry Content-Type "application/json; charset=utf-8" and Accept,
POST to BASE_URL ++ endpoint, and a fixed 15-second timeout. -/
theorem C9_post_request_shape (ep s : String) (body : Value) :
    (_post ep (.str s) true).data = .bytes (utf8Encode s) ∧
    (_post ep body false).data = .bytes (utf8Encode (jsonDumps defaultCfg body)) ∧
    (_post ep body true).headers =
      [("Content-Type", "application/json; charset=utf-8"),
       ("Accept", "application/json, text/plain, */*")] ∧
    (_post ep body false).headers =
      [("Content-Type", "application/json; charset=utf-8"),
       ("Accept", "application/json, text/plain, */*"),
       ("Referer", "https://share-h5.xbloom.com/")] ∧
    (∀ enc : Bool, (_post ep body enc).timeoutSeconds = 15 ∧
      (_post ep body enc).url = BASE_URL ++ ep ∧
      (_post ep body enc).method = "POST") :=
  ⟨rfl, rfl, rfl, rfl, fun _ => ⟨rfl, rfl, rfl⟩⟩

/-- C10 counterexample: load_auth is not robust to arbitrary corrupt content.
A credential file whose bytes are not valid UTF-8 raises UnicodeDecodeError
(which the except clause for JSONDecodeError/OSError does not catch), and a
file holding the valid JSON text 123 — a truthy non-dict — makes the
base-envelope builder raise AttributeError on auth.get rather than fall back
to an empty token. -/
theorem C10_load_auth_counterexample :
    load_auth (.content [0xFF] 0) = .error .unicodeDecodeError ∧
    _make_base_form (.content [0x31, 0x32, 0x33] 0) 7 "" =
      .error .attributeError := by
  constructor
  · simp [load_auth, utf8Dec]
  · have hl : load_auth (.content [0x31, 0x32, 0x33] 0) = .ok (some (.int 123)) := by
      simp [load_auth, utf8Dec]
      simp [jsonParse, parseValue, parseNum, skipWs, spanDigits, isWs, isDigitCh,
        digitsToNat, digitVal]
    rw [_make_base_form, if_pos rfl, hl]
    rfl

/-- C10 (amended): load_auth returns None when the credential file is absent,
unreadable at the OS level, or readable UTF-8 text that is not valid JSON
(e.g. a lone opening bracket); in each of those cases the base-envelope
builder called without an explicit token falls back to the empty token string.
Content that is not UTF-8, or a truthy non-dict JSON value, still raises. -/
theorem C10_load_auth_tolerates (fs : FileState) (mid : Int) :
    load_auth .absent = .ok none ∧
    load_auth .osError = .ok none ∧
    (∀ (bytes : List Nat) (mode : Nat) (chars : List Char),
      utf8Dec bytes = some chars → jsonParse chars = none →
      load_auth (.content bytes mode) = .ok none) ∧
    load_auth (.content [0x5B] 0) = .ok none ∧
    (load_auth fs = .ok none →
      _make_base_form fs mid "" = .ok (baseFields mid (.str ""))) := by
  refine ⟨rfl, rfl, ?_, ?_, ?_⟩
  · intro bytes mode chars h1 h2
    rw [load_auth, h1]
    show (match jsonParse chars with
      | none => (Except.ok none : Except PyErr (Option Value))
      | some v => Except.ok (some v)) = .ok none
    rw [h2]
  · simp [load_auth, utf8Dec]
    simp [jsonParse, parseValue, parseElems, parseElemsTail, skipWs, isWs]
  · intro h
    rw [_make_base_form, if_pos rfl, h]
    rfl

end XBloom
